import Mathlib

/-!
Verification of the IAVL `Node` module (node.go): the amino codec used for node
serialization, node construction (`MakeNode`), validation, cloning, hashing
(`_hash`, `hashWithCount`, `writeHashBytes`, `writeHashBytesRecursively`),
storage serialization (`writeBytes`), and the key-indexed operations
(`has`, `get`, `traverseInRange`).

Modelling conventions:
* Go `[]byte` is `Option (List Nat)`: `none` is the nil slice, `some l` a slice
  with contents `l` (each entry a byte value `< 256`).  `bytes.Equal` and
  `bytes.Compare` operate on contents, so nil behaves as the empty slice there,
  while `== nil` tests distinguish the two.
* Machine integers (`int64`, `int8`) are `Int` with explicit range hypotheses
  where Go's fixed width matters; `uint64` arithmetic carries explicit `% 2^64`.
* Fallible operations return `Except String`; a Go `panic` is modelled as an
  `Except.error` carrying the panic message.
* SHA-256 (`tmhash.New` / `tmhash.Sum`, an external library; tmhash's `New` and
  `Sum` are the full 32-byte SHA-256, not the 20-byte truncation) is an
  explicit function parameter `sha256 : Bytes → Bytes` of the hashing code.
* The node database is external to this module: child resolution
  (`getLeftNode` / `getRightNode`) consults the in-memory pointer and falls
  back to the store; the store fallback is modelled as `Option.none`, so any
  operation needing it returns `none`.
-/

namespace Iavl

/-- Byte strings: lists of byte values. -/
abbrev Bytes := List Nat

/-- Go `[]byte`: `none` is the nil slice. -/
abbrev GoBytes := Option Bytes

/-- Contents of a Go byte slice; the nil slice has empty contents. -/
def goBytes : GoBytes → Bytes
  | none => []
  | some l => l

/-- Go `bytes.Compare`: lexicographic comparison of byte-slice contents. -/
def bytesCompare : Bytes → Bytes → Ordering
  | [], [] => .eq
  | [], _ :: _ => .lt
  | _ :: _, [] => .gt
  | a :: as, b :: bs =>
    if a < b then .lt else if b < a then .gt else bytesCompare as bs

/-- Go `bytes.Equal`: equality of byte-slice contents (nil equals empty). -/
def bytesEqual (a b : GoBytes) : Bool := goBytes a == goBytes b

/-! ### The amino codec (go-amino / encoding/binary), as used by node.go -/

/-- Go `binary.PutUvarint`: little-endian base-128 groups with continuation
bit 0x80 on every byte except the last. -/
def putUvarint (u : Nat) : Bytes :=
  if h : u < 0x80 then [u] else (u % 0x80 + 0x80) :: putUvarint (u / 0x80)
decreasing_by exact Nat.div_lt_self (by omega) (by omega)

/-- The zigzag map used by Go `binary.PutVarint` on an `int64` value:
`uint64(i)<<1`, bit-complemented for negative `i`. -/
def zigzag (i : Int) : Nat :=
  if 0 ≤ i then (2 * i).toNat else (-2 * i - 1).toNat

/-- Go `binary.PutVarint`: zigzag then unsigned varint. -/
def putVarint (i : Int) : Bytes := putUvarint (zigzag i)

/-- amino `EncodeVarint` writes `binary.PutVarint` bytes. -/
def EncodeVarint (i : Int) : Bytes := putVarint i

/-- amino `EncodeInt8` delegates to `EncodeVarint`. -/
def EncodeInt8 (i : Int) : Bytes := EncodeVarint i

/-- amino `EncodeByteSlice`: unsigned-varint length prefix then the raw bytes
(a nil slice encodes like the empty slice). -/
def EncodeByteSlice (bz : GoBytes) : Bytes :=
  putUvarint (goBytes bz).length ++ goBytes bz

/-- Loop of Go `binary.Uvarint`.  Arguments: remaining buffer, byte index `i`,
shift `s = 7*i`, accumulator `x`.  Result `(value, n)`: `n = 0` means the
buffer ended inside the varint, `n < 0` means overflow past 64 bits. -/
def uvarintLoop : Bytes → Nat → Nat → Nat → Nat × Int
  | [], _, _, _ => (0, 0)
  | b :: bz, i, s, x =>
    if i = 10 then (0, -(i + 1 : Int))
    else if b < 0x80 then
      if i = 9 ∧ 1 < b then (0, -(i + 1 : Int))
      else (x ||| ((b <<< s) % 2 ^ 64), (i + 1 : Int))
    else uvarintLoop bz (i + 1) (s + 7) (x ||| (((b &&& 0x7f) <<< s) % 2 ^ 64))

/-- Go `binary.Uvarint`. -/
def binaryUvarint (buf : Bytes) : Nat × Int := uvarintLoop buf 0 0 0

/-- Inverse zigzag as computed by Go `binary.Varint`:
`x := int64(ux >> 1); if ux&1 != 0 { x = ^x }`. -/
def unzigzag (u : Nat) : Int :=
  if u % 2 = 0 then ((u / 2 : Nat) : Int) else -((u / 2 : Nat) : Int) - 1

/-- Go `binary.Varint`. -/
def binaryVarint (buf : Bytes) : Int × Int :=
  let p := binaryUvarint buf
  (unzigzag p.1, p.2)

/-- amino `DecodeUvarint`: error when the raw decoder reports truncation
(`n = 0`) or overflow (`n < 0`). -/
def DecodeUvarint (bz : Bytes) : Except String (Nat × Nat) :=
  let p := binaryUvarint bz
  if p.2 = 0 then .error "EOF decoding uvarint"
  else if p.2 < 0 then .error "overflow decoding uvarint"
  else .ok (p.1, p.2.toNat)

/-- amino `DecodeVarint`: error when the raw decoder reports truncation or
overflow. -/
def DecodeVarint (bz : Bytes) : Except String (Int × Nat) :=
  let p := binaryVarint bz
  if p.2 = 0 then .error "EOF decoding varint"
  else if p.2 < 0 then .error "overflow decoding varint"
  else .ok (p.1, p.2.toNat)

/-- amino `DecodeInt8`: a varint that must fit in `int8`. -/
def DecodeInt8 (bz : Bytes) : Except String (Int × Nat) := do
  let p ← DecodeVarint bz
  if 127 < p.1 ∨ p.1 < -128 then .error "overflow decoding int8"
  else .ok p

/-- amino `DecodeByteSlice`: uvarint count, cast-to-`int` overflow check,
remaining-length check, then the counted bytes. -/
def DecodeByteSlice (bz : Bytes) : Except String (Bytes × Nat) := do
  let p ← DecodeUvarint bz
  if 2 ^ 63 ≤ p.1 then .error "invalid negative length decoding byte slice"
  else if (bz.drop p.2).length < p.1 then .error "insufficient bytes decoding byte slice"
  else .ok ((bz.drop p.2).take p.1, p.2 + p.1)

/-! ### The Node structure (node.go) -/

/-- A node of the IAVL tree, mirroring the Go struct field for field.  The
in-memory child pointers `leftNode`/`rightNode` are `Option Node` (`none` is a
nil pointer). -/
inductive Node : Type where
  | mk (key value hash leftHash rightHash : GoBytes) (version size : Int)
      (leftNode rightNode : Option Node) (height : Int) (saved persisted : Bool) : Node

def Node.key : Node → GoBytes
  | .mk k _ _ _ _ _ _ _ _ _ _ _ => k

def Node.value : Node → GoBytes
  | .mk _ v _ _ _ _ _ _ _ _ _ _ => v

def Node.hash : Node → GoBytes
  | .mk _ _ h _ _ _ _ _ _ _ _ _ => h

def Node.leftHash : Node → GoBytes
  | .mk _ _ _ lh _ _ _ _ _ _ _ _ => lh

def Node.rightHash : Node → GoBytes
  | .mk _ _ _ _ rh _ _ _ _ _ _ _ => rh

def Node.version : Node → Int
  | .mk _ _ _ _ _ ver _ _ _ _ _ _ => ver

def Node.size : Node → Int
  | .mk _ _ _ _ _ _ sz _ _ _ _ _ => sz

def Node.leftNode : Node → Option Node
  | .mk _ _ _ _ _ _ _ ln _ _ _ _ => ln

def Node.rightNode : Node → Option Node
  | .mk _ _ _ _ _ _ _ _ rn _ _ _ => rn

def Node.height : Node → Int
  | .mk _ _ _ _ _ _ _ _ _ ht _ _ => ht

def Node.saved : Node → Bool
  | .mk _ _ _ _ _ _ _ _ _ _ sv _ => sv

def Node.persisted : Node → Bool
  | .mk _ _ _ _ _ _ _ _ _ _ _ p => p

/-- `node.isLeaf()`: a node is a leaf iff its height is 0. -/
def Node.isLeaf (node : Node) : Bool := node.height == 0

/-- The node with its `hash` field replaced (models `node.hash = h`). -/
def Node.withHash : Node → GoBytes → Node
  | .mk k v _ lh rh ver sz ln rn ht sv p, h => .mk k v h lh rh ver sz ln rn ht sv p

/-- `NewNode`: a fresh leaf; unset fields are zero values (nil / false). -/
def NewNode (key value : GoBytes) (version : Int) : Node :=
  .mk key value none none none version 1 none none 0 false false

/-- `MakeNode`: construct a node from its storage encoding.  Reads
`int8(height) || varint(size) || varint(version) || bytes(key)`, then for a
leaf `bytes(value)` and for an inner node `bytes(leftHash) || bytes(rightHash)`.
Error messages are those of the failing decoder (Go wraps them with context). -/
def MakeNode (buf : Bytes) : Except String Node := do
  let ph ← DecodeInt8 buf
  let buf1 := buf.drop ph.2
  let ps ← DecodeVarint buf1
  let buf2 := buf1.drop ps.2
  let pv ← DecodeVarint buf2
  let buf3 := buf2.drop pv.2
  let pk ← DecodeByteSlice buf3
  let buf4 := buf3.drop pk.2
  if ph.1 == 0 then
    let pval ← DecodeByteSlice buf4
    return Node.mk (some pk.1) (some pval.1) none none none pv.1 ps.1 none none ph.1 false false
  else
    let pl ← DecodeByteSlice buf4
    let buf5 := buf4.drop pl.2
    let pr ← DecodeByteSlice buf5
    return Node.mk (some pk.1) none none (some pl.1) (some pr.1) pv.1 ps.1 none none ph.1 false false

/-- `node.clone(version)`: error on a leaf; otherwise a shallow copy with the
given version, nil hash and value, and `saved = persisted = false`. -/
def Node.clone (node : Node) (version : Int) : Except String Node :=
  if node.isLeaf then .error "attempt to copy a leaf node"
  else .ok (Node.mk node.key none none node.leftHash node.rightHash version node.size
      node.leftNode node.rightNode node.height false false)

/-- `node.validate()`: the well-formedness checks of node.go, in source order.
The Go nil-receiver check has no counterpart (a `Node` value is never nil). -/
def Node.validate (node : Node) : Except String Unit :=
  if node.key = none then .error "key cannot be nil"
  else if node.version ≤ 0 then .error "version must be greater than 0"
  else if node.height < 0 then .error "height cannot be less than 0"
  else if node.size < 1 then .error "size must be at least 1"
  else if node.height = 0 then
    if node.value = none then .error "value cannot be nil for leaf node"
    else if node.leftHash.isSome || node.leftNode.isSome || node.rightHash.isSome ||
        node.rightNode.isSome then .error "leaf node cannot have children"
    else if node.size ≠ 1 then .error "leaf nodes must have size 1"
    else .ok ()
  else
    if node.value ≠ none then .error "value must be nil for non-leaf node"
    else if node.leftHash = none ∧ node.rightHash = none then
      .error "inner node must have children"
    else .ok ()

/-- `node.writeHashBytes(w)`: the canonical hash-input encoding.
`int8(height) || varint(size) || varint(version)`, then for a leaf
`bytes(key) || bytes(sha256(value))` and for an inner node
`bytes(leftHash) || bytes(rightHash)`; panics (modelled as an error) when an
inner node misses a child hash. -/
def Node.writeHashBytes (sha256 : Bytes → Bytes) (node : Node) : Except String Bytes :=
  let head := EncodeInt8 node.height ++ EncodeVarint node.size ++ EncodeVarint node.version
  if node.isLeaf then
    .ok (head ++ EncodeByteSlice node.key ++ EncodeByteSlice (some (sha256 (goBytes node.value))))
  else if node.leftHash = none ∨ node.rightHash = none then
    .error "Found an empty child hash"
  else
    .ok (head ++ EncodeByteSlice node.leftHash ++ EncodeByteSlice node.rightHash)

/-- `node._hash()`: return the cached hash, or hash the
`writeHashBytes` encoding and cache it.  Returns the hash together with the
updated node (Go mutates the receiver). -/
def Node._hash (sha256 : Bytes → Bytes) (node : Node) : Except String (Bytes × Node) :=
  match node.hash with
  | some h => .ok (h, node)
  | none => do
    let buf ← node.writeHashBytes sha256
    let h := sha256 buf
    return (h, node.withHash (some h))

/-- `node.writeBytes(w)`: the canonical storage encoding.
`int8(height) || varint(size) || varint(version) || bytes(key)`, then
`bytes(value)` for a leaf or `bytes(leftHash) || bytes(rightHash)` for an
inner node; panics (modelled as errors) when an inner node misses a child
hash. -/
def Node.writeBytes (node : Node) : Except String Bytes :=
  let head := EncodeInt8 node.height ++ EncodeVarint node.size ++ EncodeVarint node.version ++
    EncodeByteSlice node.key
  if node.isLeaf then .ok (head ++ EncodeByteSlice node.value)
  else if node.leftHash = none then .error "node.leftHash was nil in writeBytes"
  else if node.rightHash = none then .error "node.rightHash was nil in writeBytes"
  else .ok (head ++ EncodeByteSlice node.leftHash ++ EncodeByteSlice node.rightHash)

/-- `node.getLeftNode(t)`: the in-memory child if present; the store fallback
(`t.ndb.GetNode(node.leftHash)`) is outside this module and modelled as
`none`. -/
def Node.getLeftNode (node : Node) : Option Node := node.leftNode

/-- `node.getRightNode(t)`: the in-memory child if present; the store fallback
is modelled as `none`. -/
def Node.getRightNode (node : Node) : Option Node := node.rightNode

mutual

/-- `node.hashWithCount()`: the cached hash with count 0, or recursively hash
the in-memory children (caching their hashes into `leftHash`/`rightHash`),
hash this node, and return `(hash, hashed-node count, updated node)`.  Takes
no tree/store argument, mirroring the Go method. -/
def Node.hashWithCount (sha256 : Bytes → Bytes) (node : Node) :
    Except String (Bytes × Int × Node) :=
  match node.hash with
  | some h => .ok (h, 0, node)
  | none => do
    let r ← node.writeHashBytesRecursively sha256
    let h := sha256 r.1
    return (h, r.2.1 + 1, r.2.2.withHash (some h))

/-- `node.writeHashBytesRecursively(w)`: hash the in-memory children via
`hashWithCount`, store their hashes in `leftHash`/`rightHash`, then write this
node's hash-input bytes; returns `(bytes, count, updated node)`. -/
def Node.writeHashBytesRecursively (sha256 : Bytes → Bytes) (node : Node) :
    Except String (Bytes × Int × Node) :=
  match node with
  | .mk k v hh lh rh ver sz ln rn ht sv p => do
    let l ← match ln with
      | some lchild => do
        let rl ← lchild.hashWithCount sha256
        pure (some rl.1, (some rl.2.2 : Option Node), rl.2.1)
      | none => pure (lh, ln, (0 : Int))
    let r ← match rn with
      | some rchild => do
        let rr ← rchild.hashWithCount sha256
        pure (some rr.1, (some rr.2.2 : Option Node), rr.2.1)
      | none => pure (rh, rn, (0 : Int))
    let node1 := Node.mk k v hh l.1 r.1 ver sz l.2.1 r.2.1 ht sv p
    let buf ← node1.writeHashBytes sha256
    return (buf, l.2.2 + r.2.2, node1)

end

/-- `node.has(t, key)`: true on key equality, false at a leaf, otherwise
descend left or right by comparison.  Returns `none` when the needed child is
only in the store (outside this module). -/
def Node.has (node : Node) (key : GoBytes) : Option Bool :=
  match node with
  | .mk k _ _ _ _ _ _ ln rn ht _ _ =>
    if bytesEqual k key then some true
    else if ht == 0 then some false
    else if bytesCompare (goBytes key) (goBytes k) = .lt then
      match ln with
      | some l => l.has key
      | none => none
    else
      match rn with
      | some r => r.has key
      | none => none

/-- The `switch bytes.Compare(node.key, key)` of the leaf case of `get`:
`-1` yields rank 1 with nil value, `1` rank 0 with nil value, `0` rank 0 with
the leaf's value. -/
def leafGetSwitch (c : Ordering) (v : GoBytes) : Option (Int × GoBytes) :=
  match c with
  | .lt => some (1, none)
  | .gt => some (0, none)
  | .eq => some (0, v)

/-- `node.get(t, key)`: `(rank, value)` — at a leaf compare the keys via
`leafGetSwitch`; at an inner node descend left when `key < node.key`, else
descend right and offset the rank by `node.size - rightNode.size`.  The Go
code returns a nil value when the key is absent.  Returns `none` when the
needed child is only in the store. -/
def Node.get (node : Node) (key : GoBytes) : Option (Int × GoBytes) :=
  match node with
  | .mk k v _ _ _ _ sz ln rn ht _ _ =>
    if ht == 0 then
      leafGetSwitch (bytesCompare (goBytes k) (goBytes key)) v
    else if bytesCompare (goBytes key) (goBytes k) = .lt then
      match ln with
      | some l => l.get key
      | none => none
    else
      match rn with
      | some r => (r.get key).map (fun q => (q.1 + (sz - r.size), q.2))
      | none => none

/-- `node.traverseInRange(t, start, end, ascending, inclusive, depth, post, cb)`
with the callback's effects made explicit: the result is the ordered list of
`cb` invocations `(node, depth)` together with the final stop flag; `cb` is a
pure stopping predicate.  `depth` is a Go `uint8` and wraps at 256.  Returns
`none` when a needed child is only in the store. -/
def Node.traverseInRange (node : Node) (start end_ : GoBytes)
    (ascending inclusive : Bool) (depth : Nat) (post : Bool)
    (cb : Node → Nat → Bool) : Option (List (Node × Nat) × Bool) :=
  match node with
  | .mk k v hh lh rh ver sz ln rn ht sv p =>
    let node0 := Node.mk k v hh lh rh ver sz ln rn ht sv p
    let afterStart := start.isNone || bytesCompare (goBytes start) (goBytes k) == .lt
    let startOrAfter := start.isNone || !(bytesCompare (goBytes start) (goBytes k) == .gt)
    let beforeEnd :=
      if inclusive then end_.isNone || !(bytesCompare (goBytes k) (goBytes end_) == .gt)
      else end_.isNone || bytesCompare (goBytes k) (goBytes end_) == .lt
    let isLeafB := ht == 0
    let runCb := !isLeafB || (startOrAfter && beforeEnd)
    let preCalls := if !post && runCb then [(node0, depth)] else []
    let preStop := if !post && runCb then cb node0 depth else false
    if preStop then some (preCalls, true)
    else do
      let child ←
        if isLeafB then pure (([] : List (Node × Nat)), false)
        else if ascending then do
          let lres ←
            if afterStart then
              (match ln with
               | some l => l.traverseInRange start end_ ascending inclusive
                   ((depth + 1) % 256) post cb
               | none => none)
            else pure ([], false)
          if lres.2 then pure lres
          else do
            let rres ←
              if beforeEnd then
                (match rn with
                 | some r => r.traverseInRange start end_ ascending inclusive
                     ((depth + 1) % 256) post cb
                 | none => none)
              else pure ([], false)
            pure (lres.1 ++ rres.1, rres.2)
        else do
          let rres ←
            if beforeEnd then
              (match rn with
               | some r => r.traverseInRange start end_ ascending inclusive
                   ((depth + 1) % 256) post cb
               | none => none)
            else pure ([], false)
          if rres.2 then pure rres
          else do
            let lres ←
              if afterStart then
                (match ln with
                 | some l => l.traverseInRange start end_ ascending inclusive
                     ((depth + 1) % 256) post cb
                 | none => none)
              else pure ([], false)
            pure (rres.1 ++ lres.1, lres.2)
      if child.2 then some (preCalls ++ child.1, true)
      else
        let postCalls := if post && runCb then [(node0, depth)] else []
        let postStop := if post && runCb then cb node0 depth else false
        some (preCalls ++ child.1 ++ postCalls, postStop)

/-! ### Data-model invariants and derived views -/

/-- The in-order list of `(key contents, value)` leaf entries of the in-memory
subtree (a missing in-memory child contributes nothing; the invariants below
rule that case out). -/
def Node.leafEntries : Node → List (Bytes × GoBytes)
  | .mk k v _ _ _ _ _ ln rn ht _ _ =>
    if ht == 0 then [(goBytes k, v)]
    else
      (match ln with
       | some l => l.leafEntries
       | none => []) ++
      (match rn with
       | some r => r.leafEntries
       | none => [])

/-- The in-order list of leaf key contents. -/
def Node.leafKeys (node : Node) : List Bytes := node.leafEntries.map Prod.fst

/-- Every node of the subtree has both children in memory (no store access is
needed to walk it). -/
def Node.resolvedB : Node → Bool
  | .mk _ _ _ _ _ _ _ ln rn ht _ _ =>
    ht == 0 ||
      ((match ln with
        | some l => l.resolvedB
        | none => false) &&
       (match rn with
        | some r => r.resolvedB
        | none => false))

/-- Every node's stored `size` equals the number of leaves below it. -/
def Node.sizesOkB : Node → Bool
  | .mk k v hh lh rh ver sz ln rn ht sv p =>
    (sz == ((Node.mk k v hh lh rh ver sz ln rn ht sv p).leafEntries.length : Int)) &&
      (ht == 0 ||
        ((match ln with
          | some l => l.sizesOkB
          | none => true) &&
         (match rn with
          | some r => r.sizesOkB
          | none => true)))

/-- The search-tree ordering of the data model: below every inner node, all
left-subtree leaf keys are `< node.key`, all right-subtree leaf keys are
`≥ node.key`, and `node.key` itself is a right-subtree leaf key (it is the
smallest key of the right subtree). -/
def Node.orderedB : Node → Bool
  | .mk k _ _ _ _ _ _ ln rn ht _ _ =>
    if ht == 0 then true
    else
      (match ln with
       | some l => l.orderedB && l.leafKeys.all (fun a => bytesCompare a (goBytes k) == .lt)
       | none => true) &&
      (match rn with
       | some r => r.orderedB &&
           r.leafKeys.all (fun a => !(bytesCompare (goBytes k) a == .gt)) &&
           r.leafKeys.contains (goBytes k)
       | none => true)

/-- The data-model invariants needed by the search operations: fully resolved
in memory, correct sizes, and the search ordering. -/
def Node.goodB (node : Node) : Bool :=
  node.resolvedB && node.sizesOkB && node.orderedB

/-- The number of leaf keys strictly below `key`: the zero-based in-order rank
at which `key` sits or would be inserted. -/
def Node.rankOf (node : Node) (key : Bytes) : Nat :=
  node.leafKeys.countP (fun a => bytesCompare a key == .lt)

/-- The value stored at leaf key `key`, or `none` (Go nil) when absent. -/
def Node.lookupLeaf (node : Node) (key : Bytes) : GoBytes :=
  match node.leafEntries.find? (fun e => e.1 == key) with
  | some e => e.2
  | none => none

/-- Membership of `key` in the traversal range: `start ≤ key` (or no start
bound) and `key < end` (`≤` when inclusive, or no end bound). -/
def inRangeB (start end_ : GoBytes) (inclusive : Bool) (k : Bytes) : Bool :=
  (start.isNone || !(bytesCompare (goBytes start) k == .gt)) &&
    (if inclusive then end_.isNone || !(bytesCompare k (goBytes end_) == .gt)
     else end_.isNone || bytesCompare k (goBytes end_) == .lt)

/-- The left-descent guard of `traverseInRange` (the spec's "start == nil or
start < node.key"), computed on a node key `k`. -/
def afterStartB (start k : GoBytes) : Bool :=
  start.isNone || bytesCompare (goBytes start) (goBytes k) == .lt

/-- The right-descent guard of `traverseInRange` (the spec's "end == nil or
node.key < end", with `≤` when inclusive), computed on a node key `k`. -/
def beforeEndB (end_ k : GoBytes) (inclusive : Bool) : Bool :=
  if inclusive then end_.isNone || !(bytesCompare (goBytes k) (goBytes end_) == .gt)
  else end_.isNone || bytesCompare (goBytes k) (goBytes end_) == .lt

/-- The keys of the leaf nodes in a callback-invocation trace. -/
def reportedKeys (tr : List (Node × Nat)) : List Bytes :=
  (tr.filter (fun q => q.1.isLeaf)).map (fun q => goBytes q.1.key)

/-- The frame of `hashWithCount`: all fields agree except `hash`, and except
`leftHash`/`rightHash` where the corresponding in-memory child exists (there
they may be overwritten with the child's computed hash); children without an
in-memory pointer keep their stored hashes untouched, and the child subtrees
are themselves related. -/
def hashFrame : Node → Node → Prop
  | .mk k v _ lh rh ver sz ln rn ht sv p, .mk k' v' _ lh' rh' ver' sz' ln' rn' ht' sv' p' =>
    k' = k ∧ v' = v ∧ ver' = ver ∧ sz' = sz ∧ ht' = ht ∧ sv' = sv ∧ p' = p ∧
      (match ln, ln' with
       | none, none => lh' = lh
       | some l, some l' => hashFrame l l'
       | _, _ => False) ∧
      (match rn, rn' with
       | none, none => rh' = rh
       | some r, some r' => hashFrame r r'
       | _, _ => False)

/-! ### Specification-side encodings (written from the spec's words, to be
compared with the source-derived functions) -/

/-- The canonical hash-input encoding as the spec states it:
`int8(height) || varint(size) || varint(version)`, then for a leaf
`bytes(key) || bytes(sha256(value))` and for an inner node
`bytes(leftHash) || bytes(rightHash)` — the inner node's key is excluded and a
leaf's value enters only through its SHA-256 hash. -/
def specHashInput (sha256 : Bytes → Bytes) (node : Node) : Bytes :=
  EncodeInt8 node.height ++ EncodeVarint node.size ++ EncodeVarint node.version ++
    (if node.isLeaf then
      EncodeByteSlice node.key ++ EncodeByteSlice (some (sha256 (goBytes node.value)))
    else
      EncodeByteSlice node.leftHash ++ EncodeByteSlice node.rightHash)

/-- The canonical storage encoding as the spec states it:
`int8(height) || varint(size) || varint(version) || bytes(key)`, then
`bytes(value)` for a leaf or `bytes(leftHash) || bytes(rightHash)` for an
inner node. -/
def specStorageEncoding (node : Node) : Bytes :=
  EncodeInt8 node.height ++ EncodeVarint node.size ++ EncodeVarint node.version ++
    EncodeByteSlice node.key ++
    (if node.isLeaf then EncodeByteSlice node.value
     else EncodeByteSlice node.leftHash ++ EncodeByteSlice node.rightHash)

/-- Well-formedness exactly as claim C4 words it: non-nil key, version > 0,
height ≥ 0, size ≥ 1; a leaf has a non-nil value, size 1 and no children; an
inner node has a nil value, height ≥ 1, size ≥ 2 and **both** child hashes
present. -/
def claimC4WellFormed (node : Node) : Bool :=
  node.key.isSome && decide (0 < node.version) && decide (0 ≤ node.height) &&
    decide (1 ≤ node.size) &&
    (if node.height = 0 then
      node.value.isSome && decide (node.size = 1) && !node.leftHash.isSome &&
        !node.leftNode.isSome && !node.rightHash.isSome && !node.rightNode.isSome
    else
      !node.value.isSome && decide (1 ≤ node.height) && decide (2 ≤ node.size) &&
        node.leftHash.isSome && node.rightHash.isSome)

/-! ### Codec lemmas -/

theorem putUvarint_length_pos (u : Nat) : 0 < (putUvarint u).length := by
  rw [putUvarint]; split <;> simp

theorem lor_mul_two_pow_eq_add {a : Nat} (b k : Nat) (h : a < 2 ^ k) :
    a ||| b * 2 ^ k = a + b * 2 ^ k := by
  rw [Nat.or_comm, Nat.mul_comm, ← Nat.mul_add_lt_is_or h]; omega

theorem uvarintLoop_putUvarint (u : Nat) :
    ∀ (rest : Bytes) (i x : Nat), i ≤ 9 → x < 2 ^ (7 * i) → u * 2 ^ (7 * i) < 2 ^ 64 →
    uvarintLoop (putUvarint u ++ rest) i (7 * i) x =
      (x + u * 2 ^ (7 * i), (i : Int) + (putUvarint u).length) := by
  induction u using Nat.strong_induction_on with
  | _ u ih =>
    intro rest i x hi hx hu
    have hne : i ≠ 10 := by omega
    rw [putUvarint]
    by_cases h : u < 0x80
    · rw [dif_pos h]
      have hguard : ¬(i = 9 ∧ 1 < u) := by
        rintro ⟨rfl, hu1⟩
        have : 2 * 2 ^ (7 * 9) ≤ u * 2 ^ (7 * 9) := Nat.mul_le_mul_right _ (by omega)
        norm_num at this hu
        omega
      have hmod : (u <<< (7 * i)) % 2 ^ 64 = u * 2 ^ (7 * i) := by
        rw [Nat.shiftLeft_eq]; exact Nat.mod_eq_of_lt hu
      simp only [List.cons_append, List.nil_append, uvarintLoop]
      rw [if_neg hne, if_pos h, if_neg hguard, hmod,
        lor_mul_two_pow_eq_add u (7 * i) hx]
      simp
    · rw [dif_neg h]
      have hb : ¬(u % 0x80 + 0x80 < 0x80) := by omega
      have hand : (u % 0x80 + 0x80) &&& 0x7f = u % 0x80 := by
        have h2 := Nat.and_pow_two_sub_one_eq_mod (u % 0x80 + 0x80) 7
        norm_num at h2
        omega
      have hle : i ≤ 8 := by
        by_contra hgt
        have hi9 : i = 9 := by omega
        subst hi9
        have : 0x80 * 2 ^ (7 * 9) ≤ u * 2 ^ (7 * 9) := Nat.mul_le_mul_right _ (by omega)
        norm_num at this hu
        omega
      have hmodarg : ((u % 0x80) <<< (7 * i)) % 2 ^ 64 = (u % 0x80) * 2 ^ (7 * i) := by
        rw [Nat.shiftLeft_eq]
        exact Nat.mod_eq_of_lt (lt_of_le_of_lt
          (Nat.mul_le_mul_right _ (Nat.mod_le u 0x80)) hu)
      have hstep : 2 ^ (7 * (i + 1)) = 2 ^ (7 * i) * 0x80 := by
        rw [show 7 * (i + 1) = 7 * i + 7 by ring, pow_add]; norm_num
      have hx' : x + (u % 0x80) * 2 ^ (7 * i) < 2 ^ (7 * (i + 1)) := by
        rw [hstep]
        have h1 : (u % 0x80) * 2 ^ (7 * i) ≤ 0x7f * 2 ^ (7 * i) :=
          Nat.mul_le_mul_right _ (by omega)
        nlinarith [hx]
      have hu' : (u / 0x80) * 2 ^ (7 * (i + 1)) < 2 ^ 64 := by
        rw [hstep]
        calc (u / 0x80) * (2 ^ (7 * i) * 0x80) = (0x80 * (u / 0x80)) * 2 ^ (7 * i) := by ring
        _ ≤ u * 2 ^ (7 * i) := Nat.mul_le_mul_right _ (by omega)
        _ < 2 ^ 64 := hu
      have hrec := ih (u / 0x80) (Nat.div_lt_self (by omega) (by omega)) rest (i + 1)
        (x + (u % 0x80) * 2 ^ (7 * i)) (by omega) hx' hu'
      simp only [List.cons_append, List.append_eq, uvarintLoop]
      rw [if_neg hne, if_neg hb, hand, hmodarg, lor_mul_two_pow_eq_add _ (7 * i) hx,
        show 7 * i + 7 = 7 * (i + 1) by ring, hrec]
      have hdm := Nat.div_add_mod u 0x80
      rw [Prod.mk.injEq]
      refine ⟨?_, ?_⟩
      · rw [hstep]; nlinarith [hdm]
      · simp [List.length_cons]; ring

theorem binaryUvarint_putUvarint (u : Nat) (rest : Bytes) (hu : u < 2 ^ 64) :
    binaryUvarint (putUvarint u ++ rest) = (u, ((putUvarint u).length : Int)) := by
  have h := uvarintLoop_putUvarint u rest 0 0 (by omega) (by norm_num) (by simpa using hu)
  simpa [binaryUvarint] using h

theorem DecodeUvarint_encode (u : Nat) (rest : Bytes) (hu : u < 2 ^ 64) :
    DecodeUvarint (putUvarint u ++ rest) = .ok (u, (putUvarint u).length) := by
  have hlen := putUvarint_length_pos u
  simp only [DecodeUvarint, binaryUvarint_putUvarint u rest hu]
  rw [if_neg (by omega : ¬((putUvarint u).length : Int) = 0),
    if_neg (by omega : ¬((putUvarint u).length : Int) < 0)]
  simp

theorem zigzag_lt (i : Int) (h1 : -(2 ^ 63) ≤ i) (h2 : i < 2 ^ 63) : zigzag i < 2 ^ 64 := by
  simp only [zigzag]
  split <;> omega

theorem unzigzag_zigzag (i : Int) : unzigzag (zigzag i) = i := by
  simp only [zigzag, unzigzag]
  split <;> split <;> omega

theorem DecodeVarint_encode (i : Int) (rest : Bytes) (h1 : -(2 ^ 63) ≤ i) (h2 : i < 2 ^ 63) :
    DecodeVarint (EncodeVarint i ++ rest) = .ok (i, (EncodeVarint i).length) := by
  have hu := zigzag_lt i h1 h2
  have hlen := putUvarint_length_pos (zigzag i)
  simp only [EncodeVarint, putVarint, DecodeVarint, binaryVarint,
    binaryUvarint_putUvarint _ rest hu]
  rw [if_neg (by omega : ¬((putUvarint (zigzag i)).length : Int) = 0),
    if_neg (by omega : ¬((putUvarint (zigzag i)).length : Int) < 0)]
  simp [unzigzag_zigzag]

theorem DecodeInt8_encode (i : Int) (rest : Bytes) (h1 : -128 ≤ i) (h2 : i ≤ 127) :
    DecodeInt8 (EncodeInt8 i ++ rest) = .ok (i, (EncodeInt8 i).length) := by
  have h := DecodeVarint_encode i rest (by omega) (by omega)
  simp only [EncodeInt8] at *
  have hev : DecodeInt8 (EncodeVarint i ++ rest) =
      if 127 < i ∨ i < -128 then .error "overflow decoding int8"
      else .ok (i, (EncodeVarint i).length) := by
    unfold DecodeInt8
    rw [h]
    rfl
  rw [hev, if_neg (by omega : ¬(127 < i ∨ i < -128))]

theorem DecodeByteSlice_encode (bz : GoBytes) (rest : Bytes)
    (h : (goBytes bz).length < 2 ^ 63) :
    DecodeByteSlice (EncodeByteSlice bz ++ rest) =
      .ok (goBytes bz, (EncodeByteSlice bz).length) := by
  have hu := DecodeUvarint_encode (goBytes bz).length (goBytes bz ++ rest) (by omega)
  simp only [EncodeByteSlice, List.append_assoc] at *
  set L := (goBytes bz).length with hL
  set pre := putUvarint L with hpre
  have hbody : DecodeByteSlice (pre ++ (goBytes bz ++ rest)) =
      if 2 ^ 63 ≤ L then .error "invalid negative length decoding byte slice"
      else if ((pre ++ (goBytes bz ++ rest)).drop pre.length).length < L then
        .error "insufficient bytes decoding byte slice"
      else .ok (((pre ++ (goBytes bz ++ rest)).drop pre.length).take L, pre.length + L) := by
    unfold DecodeByteSlice
    rw [hu]
    rfl
  rw [hbody, List.drop_left' rfl]
  have h1 : ¬(2 ^ 63 ≤ L) := by omega
  have h2 : ¬((goBytes bz ++ rest).length < L) := by
    simp [hL]
  rw [if_neg h1, if_neg h2, hL, List.take_left, List.length_append]

theorem except_ok_bind {α β ε : Type} (x : α) (f : α → Except ε β) :
    (Except.ok x : Except ε α) >>= f = f x := rfl

theorem except_error_bind {α β ε : Type} (e : ε) (f : α → Except ε β) :
    (Except.error e : Except ε α) >>= f = .error e := rfl

theorem except_isOk_error {α ε : Type} (e : ε) :
    (Except.error e : Except ε α).isOk = false := rfl

theorem except_isOk_ok {α ε : Type} (x : α) :
    (Except.ok x : Except ε α).isOk = true := rfl

theorem putUvarint_take_ge (u : Nat) :
    ∀ n, n < (putUvarint u).length → ∀ b ∈ (putUvarint u).take n, 0x80 ≤ b := by
  induction u using Nat.strong_induction_on with
  | _ u ih =>
    intro n hn b hb
    rw [putUvarint] at hn hb
    by_cases h : u < 0x80
    · rw [dif_pos h] at hn hb
      simp at hn
      subst hn
      simp at hb
    · rw [dif_neg h] at hn hb
      cases n with
      | zero => simp at hb
      | succ m =>
        rw [List.take_succ_cons] at hb
        simp only [List.length_cons] at hn
        rcases List.mem_cons.mp hb with rfl | hb2
        · omega
        · exact ih (u / 0x80) (Nat.div_lt_self (by omega) (by omega)) m (by omega) b hb2

theorem uvarintLoop_all_ge (l : Bytes) (hl : ∀ b ∈ l, 0x80 ≤ b) :
    ∀ i s x, (uvarintLoop l i s x).2 ≤ 0 := by
  induction l with
  | nil => intro i s x; simp [uvarintLoop]
  | cons b bz ih =>
    intro i s x
    have hb : 0x80 ≤ b := hl b (by simp)
    simp only [uvarintLoop]
    split
    · simp
      omega
    · rw [if_neg (by omega : ¬b < 0x80)]
      exact ih (fun c hc => hl c (by simp [hc])) _ _ _

theorem DecodeUvarint_fail {l : Bytes} (hl : ∀ b ∈ l, 0x80 ≤ b) :
    ∃ e, DecodeUvarint l = .error e := by
  have h := uvarintLoop_all_ge l hl 0 0 0
  by_cases h0 : (uvarintLoop l 0 0 0).2 = 0
  · refine ⟨"EOF decoding uvarint", ?_⟩
    simp [DecodeUvarint, binaryUvarint, h0]
  · refine ⟨"overflow decoding uvarint", ?_⟩
    simp only [DecodeUvarint, binaryUvarint]
    rw [if_neg h0, if_pos (by omega)]

theorem DecodeVarint_fail {l : Bytes} (hl : ∀ b ∈ l, 0x80 ≤ b) :
    ∃ e, DecodeVarint l = .error e := by
  have h := uvarintLoop_all_ge l hl 0 0 0
  by_cases h0 : (uvarintLoop l 0 0 0).2 = 0
  · refine ⟨"EOF decoding varint", ?_⟩
    simp [DecodeVarint, binaryVarint, binaryUvarint, h0]
  · refine ⟨"overflow decoding varint", ?_⟩
    simp only [DecodeVarint, binaryVarint, binaryUvarint]
    rw [if_neg h0, if_pos (by omega)]

theorem DecodeVarint_take_fail (i : Int) (n : Nat) (hn : n < (EncodeVarint i).length) :
    ∃ e, DecodeVarint ((EncodeVarint i).take n) = .error e :=
  DecodeVarint_fail (putUvarint_take_ge (zigzag i) n hn)

theorem DecodeInt8_take_fail (i : Int) (n : Nat) (hn : n < (EncodeInt8 i).length) :
    ∃ e, DecodeInt8 ((EncodeInt8 i).take n) = .error e := by
  obtain ⟨e, he⟩ := DecodeVarint_take_fail i n hn
  refine ⟨e, ?_⟩
  unfold DecodeInt8
  simp only [EncodeInt8] at *
  rw [he]
  rfl

theorem DecodeByteSlice_fail_of_uvarint {l : Bytes} {e : String}
    (h : DecodeUvarint l = .error e) : DecodeByteSlice l = .error e := by
  unfold DecodeByteSlice
  rw [h]
  rfl

theorem DecodeByteSlice_take_fail (bz : GoBytes) (n : Nat)
    (hlen : (goBytes bz).length < 2 ^ 63)
    (hn : n < (EncodeByteSlice bz).length) :
    ∃ e, DecodeByteSlice ((EncodeByteSlice bz).take n) = .error e := by
  by_cases hcase : n < (putUvarint (goBytes bz).length).length
  · have heq : (EncodeByteSlice bz).take n = (putUvarint (goBytes bz).length).take n := by
      simp only [EncodeByteSlice]
      exact List.take_append_of_le_length (by omega)
    obtain ⟨e, he⟩ := DecodeUvarint_fail (putUvarint_take_ge (goBytes bz).length n hcase)
    exact ⟨e, by rw [heq]; exact DecodeByteSlice_fail_of_uvarint he⟩
  · have hm : n - (putUvarint (goBytes bz).length).length < (goBytes bz).length := by
      simp only [EncodeByteSlice, List.length_append] at hn
      omega
    have heq : (EncodeByteSlice bz).take n =
        putUvarint (goBytes bz).length ++
          (goBytes bz).take (n - (putUvarint (goBytes bz).length).length) := by
      simp only [EncodeByteSlice]
      rw [List.take_append_eq_append_take]
      congr 1
      exact List.take_of_length_le (by omega)
    rw [heq]
    have hu := DecodeUvarint_encode (goBytes bz).length
      ((goBytes bz).take (n - (putUvarint (goBytes bz).length).length)) (by omega)
    refine ⟨"insufficient bytes decoding byte slice", ?_⟩
    unfold DecodeByteSlice
    rw [hu, except_ok_bind, if_neg (by omega : ¬2 ^ 63 ≤ (goBytes bz).length),
      if_pos ?_]
    rw [List.drop_left' rfl, List.length_take]
    omega

/-! ### Hash-input encoding (claim C1) -/

theorem withHash_hash (node : Node) (h : GoBytes) : (node.withHash h).hash = h := by
  cases node
  rfl

theorem writeHashBytes_eq_spec (sha256 : Bytes → Bytes) (node : Node) (b : Bytes)
    (hok : node.writeHashBytes sha256 = .ok b) : b = specHashInput sha256 node := by
  unfold Node.writeHashBytes at hok
  unfold specHashInput
  by_cases hl : node.isLeaf
  · simp only [hl, if_true, if_pos] at hok ⊢
    cases hok
    simp [List.append_assoc]
  · simp only [hl, Bool.false_eq_true, if_false] at hok ⊢
    by_cases hmiss : node.leftHash = none ∨ node.rightHash = none
    · rw [if_pos hmiss] at hok
      cases hok
    · rw [if_neg hmiss] at hok
      cases hok
      simp [List.append_assoc]

/-- C1: for every node whose hash is not yet cached, `_hash` produces exactly
the SHA-256 digest of the canonical hash-input encoding —
`int8(height) || varint(size) || varint(version)`, then
`bytes(key) || bytes(sha256(value))` for a leaf and
`bytes(leftHash) || bytes(rightHash)` for an inner node (key excluded, value
hashed indirectly) — and caches it in the node. -/
theorem iavl_c1 (sha256 : Bytes → Bytes) (node : Node) (hnew : node.hash = none)
    (h : Bytes) (node' : Node) (hres : Node._hash sha256 node = .ok (h, node')) :
    h = sha256 (specHashInput sha256 node) ∧ node'.hash = some h := by
  unfold Node._hash at hres
  rw [hnew] at hres
  cases hwb : node.writeHashBytes sha256 with
  | error e =>
    rw [hwb] at hres
    cases hres
  | ok b =>
    rw [hwb] at hres
    simp only [except_ok_bind] at hres
    have hb := writeHashBytes_eq_spec sha256 node b hwb
    cases hres
    exact ⟨by rw [hb], withHash_hash _ _⟩

/-- C1 witness: a concrete fresh leaf, hashed with a concrete stand-in hash
function. -/
theorem iavl_c1_witness :
    ∃ h node', Node._hash (fun b => [b.length % 256]) (NewNode (some [1]) (some [2]) 1)
        = .ok (h, node') ∧
      h = (fun b : Bytes => [b.length % 256]) (specHashInput (fun b => [b.length % 256])
        (NewNode (some [1]) (some [2]) 1)) ∧
      node'.hash = some h := by
  have hres : Node._hash (fun b => [b.length % 256]) (NewNode (some [1]) (some [2]) 1)
      = .ok ([7], Node.mk (some [1]) (some [2]) (some [7]) none none 1 1 none none 0
        false false) := by
    simp [Node._hash, NewNode, Node.hash, Node.writeHashBytes, Node.isLeaf, Node.height,
      Node.size, Node.version, Node.key, Node.value, EncodeInt8, EncodeVarint, putVarint,
      zigzag, putUvarint, EncodeByteSlice, goBytes, Node.withHash]
  have h2 := iavl_c1 (fun b => [b.length % 256]) (NewNode (some [1]) (some [2]) 1) rfl
    [7] (Node.mk (some [1]) (some [2]) (some [7]) none none 1 1 none none 0 false false) hres
  exact ⟨[7], _, hres, h2.1, h2.2⟩

/-! ### Storage round trip (claims C2, C5) -/

theorem writeBytes_eq_spec (node : Node) (b : Bytes)
    (hok : node.writeBytes = .ok b) : b = specStorageEncoding node := by
  unfold Node.writeBytes at hok
  unfold specStorageEncoding
  by_cases hl : node.isLeaf
  · simp only [hl, if_true, if_pos] at hok ⊢
    cases hok
    simp [List.append_assoc]
  · simp only [hl, Bool.false_eq_true, if_false] at hok ⊢
    by_cases hmiss : node.leftHash = none
    · rw [if_pos hmiss] at hok
      cases hok
    · rw [if_neg hmiss] at hok
      by_cases hmiss2 : node.rightHash = none
      · rw [if_pos hmiss2] at hok
        cases hok
      · rw [if_neg hmiss2] at hok
        cases hok
        simp [List.append_assoc]

theorem makeNode_decodes_leaf (ht sz ver : Int) (k v : Bytes)
    (hh1 : -128 ≤ ht) (hh2 : ht ≤ 127) (hht : ht = 0)
    (hs1 : -(2 ^ 63) ≤ sz) (hs2 : sz < 2 ^ 63)
    (hv1 : -(2 ^ 63) ≤ ver) (hv2 : ver < 2 ^ 63)
    (hk : k.length < 2 ^ 63) (hval : v.length < 2 ^ 63) :
    MakeNode (EncodeInt8 ht ++ (EncodeVarint sz ++ (EncodeVarint ver ++
        (EncodeByteSlice (some k) ++ EncodeByteSlice (some v))))) =
      .ok (Node.mk (some k) (some v) none none none ver sz none none ht false false) := by
  subst hht
  have d1 := DecodeInt8_encode 0 (EncodeVarint sz ++ (EncodeVarint ver ++
    (EncodeByteSlice (some k) ++ EncodeByteSlice (some v)))) (by omega) (by omega)
  have d2 := DecodeVarint_encode sz (EncodeVarint ver ++
    (EncodeByteSlice (some k) ++ EncodeByteSlice (some v))) hs1 hs2
  have d3 := DecodeVarint_encode ver
    (EncodeByteSlice (some k) ++ EncodeByteSlice (some v)) hv1 hv2
  have d4 := DecodeByteSlice_encode (some k) (EncodeByteSlice (some v))
    (by simpa [goBytes] using hk)
  have d5 := DecodeByteSlice_encode (some v) [] (by simpa [goBytes] using hval)
  rw [List.append_nil] at d5
  simp only [EncodeInt8] at d1
  simp only [MakeNode, EncodeInt8, d1, except_ok_bind, List.drop_left, d2, d3, d4, d5,
    goBytes, beq_self_eq_true, if_true]
  rfl

theorem makeNode_decodes_inner (ht sz ver : Int) (k lh rh : Bytes)
    (hh1 : -128 ≤ ht) (hh2 : ht ≤ 127) (hht : ht ≠ 0)
    (hs1 : -(2 ^ 63) ≤ sz) (hs2 : sz < 2 ^ 63)
    (hv1 : -(2 ^ 63) ≤ ver) (hv2 : ver < 2 ^ 63)
    (hk : k.length < 2 ^ 63) (hlh : lh.length < 2 ^ 63) (hrh : rh.length < 2 ^ 63) :
    MakeNode (EncodeInt8 ht ++ (EncodeVarint sz ++ (EncodeVarint ver ++
        (EncodeByteSlice (some k) ++ (EncodeByteSlice (some lh) ++
          EncodeByteSlice (some rh)))))) =
      .ok (Node.mk (some k) none none (some lh) (some rh) ver sz none none ht
        false false) := by
  have d1 := DecodeInt8_encode ht (EncodeVarint sz ++ (EncodeVarint ver ++
    (EncodeByteSlice (some k) ++ (EncodeByteSlice (some lh) ++
      EncodeByteSlice (some rh))))) (by omega) (by omega)
  have d2 := DecodeVarint_encode sz (EncodeVarint ver ++
    (EncodeByteSlice (some k) ++ (EncodeByteSlice (some lh) ++
      EncodeByteSlice (some rh)))) hs1 hs2
  have d3 := DecodeVarint_encode ver
    (EncodeByteSlice (some k) ++ (EncodeByteSlice (some lh) ++
      EncodeByteSlice (some rh))) hv1 hv2
  have d4 := DecodeByteSlice_encode (some k)
    (EncodeByteSlice (some lh) ++ EncodeByteSlice (some rh)) (by simpa [goBytes] using hk)
  have d5 := DecodeByteSlice_encode (some lh) (EncodeByteSlice (some rh))
    (by simpa [goBytes] using hlh)
  have d6 := DecodeByteSlice_encode (some rh) [] (by simpa [goBytes] using hrh)
  rw [List.append_nil] at d6
  have hbeq : (ht == 0) = false := by simp [hht]
  simp only [EncodeInt8] at d1
  simp only [MakeNode, EncodeInt8, d1, except_ok_bind, List.drop_left, d2, d3, d4, d5, d6,
    goBytes, hbeq, Bool.false_eq_true, if_false]
  rfl

/-- C2: encoding a node in the canonical storage form and decoding with
`MakeNode` restores height, size, version, key, and value (leaf) or child
hashes (inner node).  The hypotheses are Go's typing and well-formedness
side conditions: the integers fit their machine widths, the key is non-nil,
a leaf's value is non-nil, an inner node's child hashes are present (without
them `writeBytes` panics), and slice lengths fit in a Go `int`. -/
theorem iavl_c2 (nd : Node) (k : Bytes)
    (hk : nd.key = some k) (hklen : k.length < 2 ^ 63)
    (hh1 : -128 ≤ nd.height) (hh2 : nd.height ≤ 127)
    (hs1 : -(2 ^ 63) ≤ nd.size) (hs2 : nd.size < 2 ^ 63)
    (hv1 : -(2 ^ 63) ≤ nd.version) (hv2 : nd.version < 2 ^ 63)
    (hleaf : nd.isLeaf = true → ∃ v, nd.value = some v ∧ v.length < 2 ^ 63)
    (hinner : nd.isLeaf = false → ∃ lh rh, nd.leftHash = some lh ∧ nd.rightHash = some rh ∧
      lh.length < 2 ^ 63 ∧ rh.length < 2 ^ 63) :
    ∃ buf nd2, nd.writeBytes = .ok buf ∧ buf = specStorageEncoding nd ∧
      MakeNode buf = .ok nd2 ∧
      nd2.height = nd.height ∧ nd2.size = nd.size ∧ nd2.version = nd.version ∧
      nd2.key = nd.key ∧
      (nd.isLeaf = true → nd2.value = nd.value) ∧
      (nd.isLeaf = false → nd2.leftHash = nd.leftHash ∧ nd2.rightHash = nd.rightHash) := by
  cases nd with
  | mk k0 v0 hh lh rh ver sz ln rn ht sv p =>
    simp only [Node.key] at hk
    subst hk
    simp only [Node.height] at hh1 hh2
    simp only [Node.size] at hs1 hs2
    simp only [Node.version] at hv1 hv2
    by_cases hl : ht = 0
    · subst hl
      obtain ⟨v, hv, hvlen⟩ := hleaf (by simp [Node.isLeaf, Node.height])
      simp only [Node.value] at hv
      subst hv
      have hwb : (Node.mk (some k) (some v) hh lh rh ver sz ln rn 0 sv p).writeBytes =
          .ok (EncodeInt8 0 ++ (EncodeVarint sz ++ (EncodeVarint ver ++
            (EncodeByteSlice (some k) ++ EncodeByteSlice (some v))))) := by
        simp [Node.writeBytes, Node.isLeaf, Node.height, Node.size, Node.version, Node.key,
          Node.value, List.append_assoc]
      refine ⟨_, _, hwb, ?_,
        makeNode_decodes_leaf 0 sz ver k v (by omega) (by omega) rfl hs1 hs2 hv1 hv2
          hklen hvlen, ?_, ?_, ?_, ?_, ?_, ?_⟩
      · simp [specStorageEncoding, Node.isLeaf, Node.height, Node.size, Node.version,
          Node.key, Node.value, List.append_assoc]
      · rfl
      · rfl
      · rfl
      · rfl
      · intro _
        rfl
      · intro habs
        simp [Node.isLeaf, Node.height] at habs
    · obtain ⟨lhb, rhb, hlh, hrh, hlhlen, hrhlen⟩ := hinner (by
        simp [Node.isLeaf, Node.height, hl])
      simp only [Node.leftHash] at hlh
      simp only [Node.rightHash] at hrh
      subst hlh
      subst hrh
      have hwb : (Node.mk (some k) v0 hh (some lhb) (some rhb) ver sz ln rn ht
          sv p).writeBytes =
          .ok (EncodeInt8 ht ++ (EncodeVarint sz ++ (EncodeVarint ver ++
            (EncodeByteSlice (some k) ++ (EncodeByteSlice (some lhb) ++
              EncodeByteSlice (some rhb)))))) := by
        simp [Node.writeBytes, Node.isLeaf, Node.height, Node.size, Node.version, Node.key,
          Node.value, Node.leftHash, Node.rightHash, hl, List.append_assoc]
      refine ⟨_, _, hwb, ?_,
        makeNode_decodes_inner ht sz ver k lhb rhb hh1 hh2 hl hs1 hs2 hv1 hv2
          hklen hlhlen hrhlen, ?_, ?_, ?_, ?_, ?_, ?_⟩
      · simp [specStorageEncoding, Node.isLeaf, Node.height, Node.size, Node.version,
          Node.key, Node.value, Node.leftHash, Node.rightHash, hl, List.append_assoc]
      · rfl
      · rfl
      · rfl
      · rfl
      · intro habs
        simp [Node.isLeaf, Node.height, hl] at habs
      · intro _
        exact ⟨rfl, rfl⟩

/-- C2 witness: the round trip at a concrete leaf node. -/
theorem iavl_c2_witness :
    ∃ buf nd2,
      (Node.mk (some [1]) (some [2]) none none none 1 1 none none 0 false
        false).writeBytes = .ok buf ∧
      buf = specStorageEncoding (Node.mk (some [1]) (some [2]) none none none 1 1 none
        none 0 false false) ∧
      MakeNode buf = .ok nd2 ∧
      nd2.height = (0 : Int) ∧ nd2.size = (1 : Int) ∧ nd2.version = (1 : Int) ∧
      nd2.key = some [1] ∧ nd2.value = some [2] := by
  obtain ⟨buf, nd2, h1, h2, h3, h4, h5, h6, h7, h8, _⟩ :=
    iavl_c2 (Node.mk (some [1]) (some [2]) none none none 1 1 none none 0 false false)
      [1] rfl (by norm_num) (by norm_num [Node.height]) (by norm_num [Node.height])
      (by norm_num [Node.size]) (by norm_num [Node.size])
      (by norm_num [Node.version]) (by norm_num [Node.version])
      (fun _ => ⟨[2], rfl, by norm_num⟩)
      (fun habs => by simp [Node.isLeaf, Node.height] at habs)
  exact ⟨buf, nd2, h1, h2, h3, h4, h5, h6, h7, h8 rfl⟩

theorem take_append_chain (A R : Bytes) (n : Nat) (h : A.length ≤ n) :
    (A ++ R).take n = A ++ R.take (n - A.length) := by
  rw [List.take_append_eq_append_take, List.take_of_length_le h]

theorem makeNode_err_height {l : Bytes} {e : String} (h : DecodeInt8 l = .error e) :
    MakeNode l = .error e := by
  simp only [MakeNode, h, except_error_bind]

theorem makeNode_err_size {l : Bytes} {p1 : Int × Nat} {e : String}
    (h1 : DecodeInt8 l = .ok p1) (h2 : DecodeVarint (l.drop p1.2) = .error e) :
    MakeNode l = .error e := by
  simp only [MakeNode, h1, except_ok_bind, h2, except_error_bind]

theorem makeNode_err_version {l : Bytes} {p1 : Int × Nat} {p2 : Int × Nat} {e : String}
    (h1 : DecodeInt8 l = .ok p1) (h2 : DecodeVarint (l.drop p1.2) = .ok p2)
    (h3 : DecodeVarint ((l.drop p1.2).drop p2.2) = .error e) :
    MakeNode l = .error e := by
  simp only [MakeNode, h1, except_ok_bind, h2, h3, except_error_bind]

theorem makeNode_err_key {l : Bytes} {p1 p2 p3 : Int × Nat} {e : String}
    (h1 : DecodeInt8 l = .ok p1) (h2 : DecodeVarint (l.drop p1.2) = .ok p2)
    (h3 : DecodeVarint ((l.drop p1.2).drop p2.2) = .ok p3)
    (h4 : DecodeByteSlice (((l.drop p1.2).drop p2.2).drop p3.2) = .error e) :
    MakeNode l = .error e := by
  simp only [MakeNode, h1, except_ok_bind, h2, h3, h4, except_error_bind]

theorem makeNode_err_body_leaf {l : Bytes} {p1 p2 p3 : Int × Nat} {p4 : Bytes × Nat}
    {e : String}
    (h1 : DecodeInt8 l = .ok p1) (h2 : DecodeVarint (l.drop p1.2) = .ok p2)
    (h3 : DecodeVarint ((l.drop p1.2).drop p2.2) = .ok p3)
    (h4 : DecodeByteSlice (((l.drop p1.2).drop p2.2).drop p3.2) = .ok p4)
    (hleaf : p1.1 = 0)
    (h5 : DecodeByteSlice ((((l.drop p1.2).drop p2.2).drop p3.2).drop p4.2) = .error e) :
    MakeNode l = .error e := by
  simp only [MakeNode, h1, except_ok_bind, h2, h3, h4, hleaf, beq_self_eq_true, if_true,
    h5, except_error_bind]

theorem makeNode_err_body_left {l : Bytes} {p1 p2 p3 : Int × Nat} {p4 : Bytes × Nat}
    {e : String}
    (h1 : DecodeInt8 l = .ok p1) (h2 : DecodeVarint (l.drop p1.2) = .ok p2)
    (h3 : DecodeVarint ((l.drop p1.2).drop p2.2) = .ok p3)
    (h4 : DecodeByteSlice (((l.drop p1.2).drop p2.2).drop p3.2) = .ok p4)
    (hinner : p1.1 ≠ 0)
    (h5 : DecodeByteSlice ((((l.drop p1.2).drop p2.2).drop p3.2).drop p4.2) = .error e) :
    MakeNode l = .error e := by
  have hbeq : (p1.1 == 0) = false := by simp [hinner]
  simp only [MakeNode, h1, except_ok_bind, h2, h3, h4, hbeq, Bool.false_eq_true, if_false,
    h5, except_error_bind]

theorem makeNode_err_body_right {l : Bytes} {p1 p2 p3 : Int × Nat} {p4 p5 : Bytes × Nat}
    {e : String}
    (h1 : DecodeInt8 l = .ok p1) (h2 : DecodeVarint (l.drop p1.2) = .ok p2)
    (h3 : DecodeVarint ((l.drop p1.2).drop p2.2) = .ok p3)
    (h4 : DecodeByteSlice (((l.drop p1.2).drop p2.2).drop p3.2) = .ok p4)
    (hinner : p1.1 ≠ 0)
    (h5 : DecodeByteSlice ((((l.drop p1.2).drop p2.2).drop p3.2).drop p4.2) = .ok p5)
    (h6 : DecodeByteSlice (((((l.drop p1.2).drop p2.2).drop p3.2).drop p4.2).drop p5.2)
      = .error e) :
    MakeNode l = .error e := by
  have hbeq : (p1.1 == 0) = false := by simp [hinner]
  simp only [MakeNode, h1, except_ok_bind, h2, h3, h4, hbeq, Bool.false_eq_true, if_false,
    h5, h6, except_error_bind]

theorem makeNode_take_fail_at_height (ht : Int) (m : Nat)
    (hm : m < (EncodeInt8 ht).length) :
    ∃ e, MakeNode ((EncodeInt8 ht).take m) = .error e := by
  obtain ⟨e, he⟩ := DecodeInt8_take_fail ht m hm
  exact ⟨e, makeNode_err_height he⟩

theorem makeNode_take_fail_at_size (ht sz : Int) (m : Nat)
    (hh1 : -128 ≤ ht) (hh2 : ht ≤ 127) (hm : m < (EncodeVarint sz).length) :
    ∃ e, MakeNode (EncodeInt8 ht ++ (EncodeVarint sz).take m) = .error e := by
  obtain ⟨e, he⟩ := DecodeVarint_take_fail sz m hm
  have d1 := DecodeInt8_encode ht ((EncodeVarint sz).take m) hh1 hh2
  have d2 : DecodeVarint ((EncodeInt8 ht ++ (EncodeVarint sz).take m).drop
      (EncodeInt8 ht).length) = .error e := by
    rw [List.drop_left' rfl]
    exact he
  exact ⟨e, makeNode_err_size d1 d2⟩

theorem makeNode_take_fail_at_version (ht sz ver : Int) (m : Nat)
    (hh1 : -128 ≤ ht) (hh2 : ht ≤ 127)
    (hs1 : -(2 ^ 63) ≤ sz) (hs2 : sz < 2 ^ 63) (hm : m < (EncodeVarint ver).length) :
    ∃ e, MakeNode (EncodeInt8 ht ++ (EncodeVarint sz ++ (EncodeVarint ver).take m))
      = .error e := by
  obtain ⟨e, he⟩ := DecodeVarint_take_fail ver m hm
  have d1 := DecodeInt8_encode ht (EncodeVarint sz ++ (EncodeVarint ver).take m) hh1 hh2
  have d2 : DecodeVarint ((EncodeInt8 ht ++ (EncodeVarint sz ++
      (EncodeVarint ver).take m)).drop (EncodeInt8 ht).length) =
      .ok (sz, (EncodeVarint sz).length) := by
    rw [List.drop_left' rfl]
    exact DecodeVarint_encode sz _ hs1 hs2
  have d3 : DecodeVarint (((EncodeInt8 ht ++ (EncodeVarint sz ++
      (EncodeVarint ver).take m)).drop (EncodeInt8 ht).length).drop
      (EncodeVarint sz).length) = .error e := by
    rw [List.drop_left' rfl, List.drop_left' rfl]
    exact he
  exact ⟨e, makeNode_err_version d1 d2 d3⟩

theorem makeNode_take_fail_at_key (ht sz ver : Int) (k : Bytes) (m : Nat)
    (hh1 : -128 ≤ ht) (hh2 : ht ≤ 127)
    (hs1 : -(2 ^ 63) ≤ sz) (hs2 : sz < 2 ^ 63)
    (hv1 : -(2 ^ 63) ≤ ver) (hv2 : ver < 2 ^ 63)
    (hk : k.length < 2 ^ 63) (hm : m < (EncodeByteSlice (some k)).length) :
    ∃ e, MakeNode (EncodeInt8 ht ++ (EncodeVarint sz ++ (EncodeVarint ver ++
      (EncodeByteSlice (some k)).take m))) = .error e := by
  obtain ⟨e, he⟩ := DecodeByteSlice_take_fail (some k) m (by simpa [goBytes] using hk) hm
  have d1 := DecodeInt8_encode ht (EncodeVarint sz ++ (EncodeVarint ver ++
    (EncodeByteSlice (some k)).take m)) hh1 hh2
  have d2 : DecodeVarint ((EncodeInt8 ht ++ (EncodeVarint sz ++ (EncodeVarint ver ++
      (EncodeByteSlice (some k)).take m))).drop (EncodeInt8 ht).length) =
      .ok (sz, (EncodeVarint sz).length) := by
    rw [List.drop_left' rfl]
    exact DecodeVarint_encode sz _ hs1 hs2
  have d3 : DecodeVarint (((EncodeInt8 ht ++ (EncodeVarint sz ++ (EncodeVarint ver ++
      (EncodeByteSlice (some k)).take m))).drop (EncodeInt8 ht).length).drop
      (EncodeVarint sz).length) = .ok (ver, (EncodeVarint ver).length) := by
    rw [List.drop_left' rfl, List.drop_left' rfl]
    exact DecodeVarint_encode ver _ hv1 hv2
  have d4 : DecodeByteSlice ((((EncodeInt8 ht ++ (EncodeVarint sz ++ (EncodeVarint ver ++
      (EncodeByteSlice (some k)).take m))).drop (EncodeInt8 ht).length).drop
      (EncodeVarint sz).length).drop (EncodeVarint ver).length) = .error e := by
    rw [List.drop_left' rfl, List.drop_left' rfl, List.drop_left' rfl]
    exact he
  exact ⟨e, makeNode_err_key d1 d2 d3 d4⟩

theorem makeNode_take_fail_at_value (sz ver : Int) (k v : Bytes) (m : Nat)
    (hs1 : -(2 ^ 63) ≤ sz) (hs2 : sz < 2 ^ 63)
    (hv1 : -(2 ^ 63) ≤ ver) (hv2 : ver < 2 ^ 63)
    (hk : k.length < 2 ^ 63) (hval : v.length < 2 ^ 63)
    (hm : m < (EncodeByteSlice (some v)).length) :
    ∃ e, MakeNode (EncodeInt8 0 ++ (EncodeVarint sz ++ (EncodeVarint ver ++
      (EncodeByteSlice (some k) ++ (EncodeByteSlice (some v)).take m)))) = .error e := by
  obtain ⟨e, he⟩ := DecodeByteSlice_take_fail (some v) m (by simpa [goBytes] using hval) hm
  have d1 := DecodeInt8_encode 0 (EncodeVarint sz ++ (EncodeVarint ver ++
    (EncodeByteSlice (some k) ++ (EncodeByteSlice (some v)).take m)))
    (by omega) (by omega)
  have d2 : DecodeVarint ((EncodeInt8 0 ++ (EncodeVarint sz ++ (EncodeVarint ver ++
      (EncodeByteSlice (some k) ++ (EncodeByteSlice (some v)).take m)))).drop
      (EncodeInt8 0).length) = .ok (sz, (EncodeVarint sz).length) := by
    rw [List.drop_left' rfl]
    exact DecodeVarint_encode sz _ hs1 hs2
  have d3 : DecodeVarint (((EncodeInt8 0 ++ (EncodeVarint sz ++ (EncodeVarint ver ++
      (EncodeByteSlice (some k) ++ (EncodeByteSlice (some v)).take m)))).drop
      (EncodeInt8 0).length).drop (EncodeVarint sz).length) =
      .ok (ver, (EncodeVarint ver).length) := by
    rw [List.drop_left' rfl, List.drop_left' rfl]
    exact DecodeVarint_encode ver _ hv1 hv2
  have d4 : DecodeByteSlice ((((EncodeInt8 0 ++ (EncodeVarint sz ++ (EncodeVarint ver ++
      (EncodeByteSlice (some k) ++ (EncodeByteSlice (some v)).take m)))).drop
      (EncodeInt8 0).length).drop (EncodeVarint sz).length).drop
      (EncodeVarint ver).length) =
      .ok (goBytes (some k), (EncodeByteSlice (some k)).length) := by
    rw [List.drop_left' rfl, List.drop_left' rfl, List.drop_left' rfl]
    exact DecodeByteSlice_encode (some k) _ (by simpa [goBytes] using hk)
  have d5 : DecodeByteSlice (((((EncodeInt8 0 ++ (EncodeVarint sz ++ (EncodeVarint ver ++
      (EncodeByteSlice (some k) ++ (EncodeByteSlice (some v)).take m)))).drop
      (EncodeInt8 0).length).drop (EncodeVarint sz).length).drop
      (EncodeVarint ver).length).drop (EncodeByteSlice (some k)).length) = .error e := by
    rw [List.drop_left' rfl, List.drop_left' rfl, List.drop_left' rfl, List.drop_left' rfl]
    exact he
  exact ⟨e, makeNode_err_body_leaf d1 d2 d3 d4 rfl d5⟩

theorem makeNode_take_fail_at_left (ht sz ver : Int) (k lh : Bytes) (m : Nat)
    (hh1 : -128 ≤ ht) (hh2 : ht ≤ 127) (hht : ht ≠ 0)
    (hs1 : -(2 ^ 63) ≤ sz) (hs2 : sz < 2 ^ 63)
    (hv1 : -(2 ^ 63) ≤ ver) (hv2 : ver < 2 ^ 63)
    (hk : k.length < 2 ^ 63) (hlh : lh.length < 2 ^ 63)
    (hm : m < (EncodeByteSlice (some lh)).length) :
    ∃ e, MakeNode (EncodeInt8 ht ++ (EncodeVarint sz ++ (EncodeVarint ver ++
      (EncodeByteSlice (some k) ++ (EncodeByteSlice (some lh)).take m)))) = .error e := by
  obtain ⟨e, he⟩ := DecodeByteSlice_take_fail (some lh) m (by simpa [goBytes] using hlh) hm
  have d1 := DecodeInt8_encode ht (EncodeVarint sz ++ (EncodeVarint ver ++
    (EncodeByteSlice (some k) ++ (EncodeByteSlice (some lh)).take m))) hh1 hh2
  have d2 : DecodeVarint ((EncodeInt8 ht ++ (EncodeVarint sz ++ (EncodeVarint ver ++
      (EncodeByteSlice (some k) ++ (EncodeByteSlice (some lh)).take m)))).drop
      (EncodeInt8 ht).length) = .ok (sz, (EncodeVarint sz).length) := by
    rw [List.drop_left' rfl]
    exact DecodeVarint_encode sz _ hs1 hs2
  have d3 : DecodeVarint (((EncodeInt8 ht ++ (EncodeVarint sz ++ (EncodeVarint ver ++
      (EncodeByteSlice (some k) ++ (EncodeByteSlice (some lh)).take m)))).drop
      (EncodeInt8 ht).length).drop (EncodeVarint sz).length) =
      .ok (ver, (EncodeVarint ver).length) := by
    rw [List.drop_left' rfl, List.drop_left' rfl]
    exact DecodeVarint_encode ver _ hv1 hv2
  have d4 : DecodeByteSlice ((((EncodeInt8 ht ++ (EncodeVarint sz ++ (EncodeVarint ver ++
      (EncodeByteSlice (some k) ++ (EncodeByteSlice (some lh)).take m)))).drop
      (EncodeInt8 ht).length).drop (EncodeVarint sz).length).drop
      (EncodeVarint ver).length) =
      .ok (goBytes (some k), (EncodeByteSlice (some k)).length) := by
    rw [List.drop_left' rfl, List.drop_left' rfl, List.drop_left' rfl]
    exact DecodeByteSlice_encode (some k) _ (by simpa [goBytes] using hk)
  have d5 : DecodeByteSlice (((((EncodeInt8 ht ++ (EncodeVarint sz ++ (EncodeVarint ver ++
      (EncodeByteSlice (some k) ++ (EncodeByteSlice (some lh)).take m)))).drop
      (EncodeInt8 ht).length).drop (EncodeVarint sz).length).drop
      (EncodeVarint ver).length).drop (EncodeByteSlice (some k)).length) = .error e := by
    rw [List.drop_left' rfl, List.drop_left' rfl, List.drop_left' rfl, List.drop_left' rfl]
    exact he
  exact ⟨e, makeNode_err_body_left d1 d2 d3 d4 hht d5⟩

theorem makeNode_take_fail_at_right (ht sz ver : Int) (k lh rh : Bytes) (m : Nat)
    (hh1 : -128 ≤ ht) (hh2 : ht ≤ 127) (hht : ht ≠ 0)
    (hs1 : -(2 ^ 63) ≤ sz) (hs2 : sz < 2 ^ 63)
    (hv1 : -(2 ^ 63) ≤ ver) (hv2 : ver < 2 ^ 63)
    (hk : k.length < 2 ^ 63) (hlh : lh.length < 2 ^ 63) (hrh : rh.length < 2 ^ 63)
    (hm : m < (EncodeByteSlice (some rh)).length) :
    ∃ e, MakeNode (EncodeInt8 ht ++ (EncodeVarint sz ++ (EncodeVarint ver ++
      (EncodeByteSlice (some k) ++ (EncodeByteSlice (some lh) ++
        (EncodeByteSlice (some rh)).take m))))) = .error e := by
  obtain ⟨e, he⟩ := DecodeByteSlice_take_fail (some rh) m (by simpa [goBytes] using hrh) hm
  have d1 := DecodeInt8_encode ht (EncodeVarint sz ++ (EncodeVarint ver ++
    (EncodeByteSlice (some k) ++ (EncodeByteSlice (some lh) ++
      (EncodeByteSlice (some rh)).take m)))) hh1 hh2
  have d2 : DecodeVarint ((EncodeInt8 ht ++ (EncodeVarint sz ++ (EncodeVarint ver ++
      (EncodeByteSlice (some k) ++ (EncodeByteSlice (some lh) ++
        (EncodeByteSlice (some rh)).take m))))).drop
      (EncodeInt8 ht).length) = .ok (sz, (EncodeVarint sz).length) := by
    rw [List.drop_left' rfl]
    exact DecodeVarint_encode sz _ hs1 hs2
  have d3 : DecodeVarint (((EncodeInt8 ht ++ (EncodeVarint sz ++ (EncodeVarint ver ++
      (EncodeByteSlice (some k) ++ (EncodeByteSlice (some lh) ++
        (EncodeByteSlice (some rh)).take m))))).drop
      (EncodeInt8 ht).length).drop (EncodeVarint sz).length) =
      .ok (ver, (EncodeVarint ver).length) := by
    rw [List.drop_left' rfl, List.drop_left' rfl]
    exact DecodeVarint_encode ver _ hv1 hv2
  have d4 : DecodeByteSlice ((((EncodeInt8 ht ++ (EncodeVarint sz ++ (EncodeVarint ver ++
      (EncodeByteSlice (some k) ++ (EncodeByteSlice (some lh) ++
        (EncodeByteSlice (some rh)).take m))))).drop
      (EncodeInt8 ht).length).drop (EncodeVarint sz).length).drop
      (EncodeVarint ver).length) =
      .ok (goBytes (some k), (EncodeByteSlice (some k)).length) := by
    rw [List.drop_left' rfl, List.drop_left' rfl, List.drop_left' rfl]
    exact DecodeByteSlice_encode (some k) _ (by simpa [goBytes] using hk)
  have d5 : DecodeByteSlice (((((EncodeInt8 ht ++ (EncodeVarint sz ++ (EncodeVarint ver ++
      (EncodeByteSlice (some k) ++ (EncodeByteSlice (some lh) ++
        (EncodeByteSlice (some rh)).take m))))).drop
      (EncodeInt8 ht).length).drop (EncodeVarint sz).length).drop
      (EncodeVarint ver).length).drop (EncodeByteSlice (some k)).length) =
      .ok (goBytes (some lh), (EncodeByteSlice (some lh)).length) := by
    rw [List.drop_left' rfl, List.drop_left' rfl, List.drop_left' rfl, List.drop_left' rfl]
    exact DecodeByteSlice_encode (some lh) _ (by simpa [goBytes] using hlh)
  have d6 : DecodeByteSlice ((((((EncodeInt8 ht ++ (EncodeVarint sz ++ (EncodeVarint ver ++
      (EncodeByteSlice (some k) ++ (EncodeByteSlice (some lh) ++
        (EncodeByteSlice (some rh)).take m))))).drop
      (EncodeInt8 ht).length).drop (EncodeVarint sz).length).drop
      (EncodeVarint ver).length).drop (EncodeByteSlice (some k)).length).drop
      (EncodeByteSlice (some lh)).length) = .error e := by
    rw [List.drop_left' rfl, List.drop_left' rfl, List.drop_left' rfl, List.drop_left' rfl,
      List.drop_left' rfl]
    exact he
  exact ⟨e, makeNode_err_body_right d1 d2 d3 d4 hht d5 d6⟩

theorem makeNode_take_fail_leaf (sz ver : Int) (k v : Bytes)
    (hs1 : -(2 ^ 63) ≤ sz) (hs2 : sz < 2 ^ 63)
    (hv1 : -(2 ^ 63) ≤ ver) (hv2 : ver < 2 ^ 63)
    (hk : k.length < 2 ^ 63) (hval : v.length < 2 ^ 63) (n : Nat)
    (hn : n < (EncodeInt8 0 ++ (EncodeVarint sz ++ (EncodeVarint ver ++
      (EncodeByteSlice (some k) ++ EncodeByteSlice (some v))))).length) :
    ∃ e, MakeNode ((EncodeInt8 0 ++ (EncodeVarint sz ++ (EncodeVarint ver ++
      (EncodeByteSlice (some k) ++ EncodeByteSlice (some v))))).take n) = .error e := by
  simp only [List.length_append] at hn
  by_cases c1 : n < (EncodeInt8 0).length
  · rw [List.take_append_of_le_length (by omega)]
    exact makeNode_take_fail_at_height 0 n c1
  · rw [take_append_chain _ _ n (by omega)]
    by_cases c2 : n - (EncodeInt8 0).length < (EncodeVarint sz).length
    · rw [List.take_append_of_le_length (by omega)]
      exact makeNode_take_fail_at_size 0 sz _ (by omega) (by omega) c2
    · rw [take_append_chain _ _ _ (by omega)]
      by_cases c3 : n - (EncodeInt8 0).length - (EncodeVarint sz).length <
          (EncodeVarint ver).length
      · rw [List.take_append_of_le_length (by omega)]
        exact makeNode_take_fail_at_version 0 sz ver _ (by omega) (by omega) hs1 hs2 c3
      · rw [take_append_chain _ _ _ (by omega)]
        by_cases c4 : n - (EncodeInt8 0).length - (EncodeVarint sz).length -
            (EncodeVarint ver).length < (EncodeByteSlice (some k)).length
        · rw [List.take_append_of_le_length (by omega)]
          exact makeNode_take_fail_at_key 0 sz ver k _ (by omega) (by omega) hs1 hs2
            hv1 hv2 hk c4
        · rw [take_append_chain _ _ _ (by omega)]
          exact makeNode_take_fail_at_value sz ver k v _ hs1 hs2 hv1 hv2 hk hval
            (by omega)

theorem makeNode_take_fail_inner (ht sz ver : Int) (k lh rh : Bytes)
    (hh1 : -128 ≤ ht) (hh2 : ht ≤ 127) (hht : ht ≠ 0)
    (hs1 : -(2 ^ 63) ≤ sz) (hs2 : sz < 2 ^ 63)
    (hv1 : -(2 ^ 63) ≤ ver) (hv2 : ver < 2 ^ 63)
    (hk : k.length < 2 ^ 63) (hlh : lh.length < 2 ^ 63) (hrh : rh.length < 2 ^ 63)
    (n : Nat)
    (hn : n < (EncodeInt8 ht ++ (EncodeVarint sz ++ (EncodeVarint ver ++
      (EncodeByteSlice (some k) ++ (EncodeByteSlice (some lh) ++
        EncodeByteSlice (some rh)))))).length) :
    ∃ e, MakeNode ((EncodeInt8 ht ++ (EncodeVarint sz ++ (EncodeVarint ver ++
      (EncodeByteSlice (some k) ++ (EncodeByteSlice (some lh) ++
        EncodeByteSlice (some rh)))))).take n) = .error e := by
  simp only [List.length_append] at hn
  by_cases c1 : n < (EncodeInt8 ht).length
  · rw [List.take_append_of_le_length (by omega)]
    exact makeNode_take_fail_at_height ht n c1
  · rw [take_append_chain _ _ n (by omega)]
    by_cases c2 : n - (EncodeInt8 ht).length < (EncodeVarint sz).length
    · rw [List.take_append_of_le_length (by omega)]
      exact makeNode_take_fail_at_size ht sz _ hh1 hh2 c2
    · rw [take_append_chain _ _ _ (by omega)]
      by_cases c3 : n - (EncodeInt8 ht).length - (EncodeVarint sz).length <
          (EncodeVarint ver).length
      · rw [List.take_append_of_le_length (by omega)]
        exact makeNode_take_fail_at_version ht sz ver _ hh1 hh2 hs1 hs2 c3
      · rw [take_append_chain _ _ _ (by omega)]
        by_cases c4 : n - (EncodeInt8 ht).length - (EncodeVarint sz).length -
            (EncodeVarint ver).length < (EncodeByteSlice (some k)).length
        · rw [List.take_append_of_le_length (by omega)]
          exact makeNode_take_fail_at_key ht sz ver k _ hh1 hh2 hs1 hs2 hv1 hv2 hk c4
        · rw [take_append_chain _ _ _ (by omega)]
          by_cases c5 : n - (EncodeInt8 ht).length - (EncodeVarint sz).length -
              (EncodeVarint ver).length - (EncodeByteSlice (some k)).length <
              (EncodeByteSlice (some lh)).length
          · rw [List.take_append_of_le_length (by omega)]
            exact makeNode_take_fail_at_left ht sz ver k lh _ hh1 hh2 hht hs1 hs2
              hv1 hv2 hk hlh c5
          · rw [take_append_chain _ _ _ (by omega)]
            exact makeNode_take_fail_at_right ht sz ver k lh rh _ hh1 hh2 hht hs1 hs2
              hv1 hv2 hk hlh hrh (by omega)

/-- C5 counterexample: the claim says `MakeNode` fails on inputs carrying
illegal values such as `size < 1`; in fact the well-formed buffer
`[0, 0, 2, 1, 1, 1, 2]` (height 0, size 0, version 1, key `[1]`, value `[2]`)
decodes successfully into a node with `size = 0 < 1` — `MakeNode` performs no
value validation. -/
theorem iavl_c5_counterexample :
    MakeNode [0, 0, 2, 1, 1, 1, 2] =
      .ok (Node.mk (some [1]) (some [2]) none none none 1 0 none none 0 false false) ∧
    (Node.mk (some [1]) (some [2]) none none none 1 0 none none 0 false false).size < 1 :=
  ⟨rfl, by norm_num [Node.size]⟩

/-- C5 (amended): `MakeNode` inverts the storage encoding and fails with an
error on every truncated input (every proper byte-prefix of a valid
encoding), but it does not reject illegal decoded values such as `size < 1`.
The hypotheses are Go's typing and well-formedness side conditions, as in the
round-trip claim. -/
theorem iavl_c5 (nd : Node) (k : Bytes)
    (hk : nd.key = some k) (hklen : k.length < 2 ^ 63)
    (hh1 : -128 ≤ nd.height) (hh2 : nd.height ≤ 127)
    (hs1 : -(2 ^ 63) ≤ nd.size) (hs2 : nd.size < 2 ^ 63)
    (hv1 : -(2 ^ 63) ≤ nd.version) (hv2 : nd.version < 2 ^ 63)
    (hleaf : nd.isLeaf = true → ∃ v, nd.value = some v ∧ v.length < 2 ^ 63)
    (hinner : nd.isLeaf = false → ∃ lh rh, nd.leftHash = some lh ∧ nd.rightHash = some rh ∧
      lh.length < 2 ^ 63 ∧ rh.length < 2 ^ 63) :
    ∃ buf, nd.writeBytes = .ok buf ∧
      (∃ nd2, MakeNode buf = .ok nd2 ∧ nd2.height = nd.height ∧ nd2.size = nd.size ∧
        nd2.version = nd.version ∧ nd2.key = nd.key) ∧
      ∀ n, n < buf.length → ∃ e, MakeNode (buf.take n) = .error e := by
  cases nd with
  | mk k0 v0 hh lh rh ver sz ln rn ht sv p =>
    simp only [Node.key] at hk
    subst hk
    simp only [Node.height] at hh1 hh2
    simp only [Node.size] at hs1 hs2
    simp only [Node.version] at hv1 hv2
    by_cases hl : ht = 0
    · subst hl
      obtain ⟨v, hv, hvlen⟩ := hleaf (by simp [Node.isLeaf, Node.height])
      simp only [Node.value] at hv
      subst hv
      have hwb : (Node.mk (some k) (some v) hh lh rh ver sz ln rn 0 sv p).writeBytes =
          .ok (EncodeInt8 0 ++ (EncodeVarint sz ++ (EncodeVarint ver ++
            (EncodeByteSlice (some k) ++ EncodeByteSlice (some v))))) := by
        simp [Node.writeBytes, Node.isLeaf, Node.height, Node.size, Node.version, Node.key,
          Node.value, List.append_assoc]
      refine ⟨_, hwb, ⟨_, makeNode_decodes_leaf 0 sz ver k v (by omega) (by omega) rfl
        hs1 hs2 hv1 hv2 hklen hvlen, rfl, rfl, rfl, rfl⟩, ?_⟩
      intro n hn
      exact makeNode_take_fail_leaf sz ver k v hs1 hs2 hv1 hv2 hklen hvlen n hn
    · obtain ⟨lhb, rhb, hlh, hrh, hlhlen, hrhlen⟩ := hinner (by
        simp [Node.isLeaf, Node.height, hl])
      simp only [Node.leftHash] at hlh
      simp only [Node.rightHash] at hrh
      subst hlh
      subst hrh
      have hwb : (Node.mk (some k) v0 hh (some lhb) (some rhb) ver sz ln rn ht
          sv p).writeBytes =
          .ok (EncodeInt8 ht ++ (EncodeVarint sz ++ (EncodeVarint ver ++
            (EncodeByteSlice (some k) ++ (EncodeByteSlice (some lhb) ++
              EncodeByteSlice (some rhb)))))) := by
        simp [Node.writeBytes, Node.isLeaf, Node.height, Node.size, Node.version, Node.key,
          Node.value, Node.leftHash, Node.rightHash, hl, List.append_assoc]
      refine ⟨_, hwb, ⟨_, makeNode_decodes_inner ht sz ver k lhb rhb hh1 hh2 hl
        hs1 hs2 hv1 hv2 hklen hlhlen hrhlen, rfl, rfl, rfl, rfl⟩, ?_⟩
      intro n hn
      exact makeNode_take_fail_inner ht sz ver k lhb rhb hh1 hh2 hl hs1 hs2 hv1 hv2
        hklen hlhlen hrhlen n hn

/-- C5 witness: the amended claim at a concrete leaf node. -/
theorem iavl_c5_witness :
    ∃ buf,
      (Node.mk (some [3]) (some [4]) none none none 2 1 none none 0 false
        false).writeBytes = .ok buf ∧
      (∃ nd2, MakeNode buf = .ok nd2) ∧
      ∀ n, n < buf.length → ∃ e, MakeNode (buf.take n) = .error e := by
  obtain ⟨buf, h1, ⟨nd2, h2, _⟩, h3⟩ :=
    iavl_c5 (Node.mk (some [3]) (some [4]) none none none 2 1 none none 0 false false)
      [3] rfl (by norm_num) (by norm_num [Node.height]) (by norm_num [Node.height])
      (by norm_num [Node.size]) (by norm_num [Node.size])
      (by norm_num [Node.version]) (by norm_num [Node.version])
      (fun _ => ⟨[4], rfl, by norm_num⟩)
      (fun habs => by simp [Node.isLeaf, Node.height] at habs)
  exact ⟨buf, h1, ⟨nd2, h2⟩, h3⟩

/-! ### Validation (claim C4) -/

/-- What `validate` actually enforces: non-nil key, version > 0, height ≥ 0,
size ≥ 1; a leaf has a non-nil value, size 1 and no children at all; an inner
node has a nil value and **at least one** child hash (the code only rejects
both hashes missing, and places no lower bound of 2 on an inner node's
size). -/
def validWellFormed (node : Node) : Bool :=
  node.key.isSome && decide (0 < node.version) && decide (0 ≤ node.height) &&
    decide (1 ≤ node.size) &&
    (if node.height = 0 then
      node.value.isSome && decide (node.size = 1) && !node.leftHash.isSome &&
        !node.leftNode.isSome && !node.rightHash.isSome && !node.rightNode.isSome
    else
      !node.value.isSome && (node.leftHash.isSome || node.rightHash.isSome))

/-- C4 counterexample: the claim requires an accepted inner node to have
size ≥ 2 and both child hashes; this inner node has size 1 and no right child
hash, yet `validate` accepts it. -/
theorem iavl_c4_counterexample :
    (Node.mk (some [1]) none none (some [2]) none 1 1 none none 1 false
      false).validate = .ok () ∧
    claimC4WellFormed (Node.mk (some [1]) none none (some [2]) none 1 1 none none 1
      false false) = false :=
  ⟨rfl, rfl⟩

/-- C4 (amended): `validate` accepts a node iff it is well-formed in the sense
the code enforces: every node needs a non-nil key, version > 0, height ≥ 0 and
size ≥ 1; a leaf must have a non-nil value, size 1 and no children; an inner
node must have a nil value, height ≥ 1 and at least one child hash present
(there is no size ≥ 2 check and a single child hash suffices). -/
theorem iavl_c4 (node : Node) : node.validate = .ok () ↔ validWellFormed node = true := by
  unfold Node.validate validWellFormed
  split_ifs <;>
    simp_all [Option.isSome_iff_ne_none] <;>
    tauto

/-- C4 witness: a concrete well-formed leaf is accepted by `validate`. -/
theorem iavl_c4_witness : (NewNode (some [1]) (some [2]) 1).validate = .ok () :=
  (iavl_c4 (NewNode (some [1]) (some [2]) 1)).mpr rfl

/-! ### Cloning (claim C8) -/

/-- C8: `clone(version)` fails iff the node is a leaf; on an inner node it
returns a copy with the same key, child hashes and child node references, the
given version, nil hash and value, and `saved = persisted = false`.  The
original node is a value and is not modified. -/
theorem iavl_c8 (node : Node) (version : Int) :
    (node.isLeaf = true → node.clone version = .error "attempt to copy a leaf node") ∧
    (node.isLeaf = false → node.clone version =
      .ok (Node.mk node.key none none node.leftHash node.rightHash version node.size
        node.leftNode node.rightNode node.height false false)) := by
  constructor
  · intro hl
    simp [Node.clone, hl]
  · intro hl
    simp [Node.clone, hl]

/-- C8 witness: cloning a concrete leaf errors; cloning a concrete inner node
yields the documented copy. -/
theorem iavl_c8_witness :
    (NewNode (some [1]) (some [2]) 1).clone 5 = .error "attempt to copy a leaf node" ∧
    (Node.mk (some [3]) none none (some [7]) (some [8]) 1 2 none none 1 true
      true).clone 5 =
      .ok (Node.mk (some [3]) none none (some [7]) (some [8]) 5 2 none none 1
        false false) := by
  constructor
  · exact (iavl_c8 (NewNode (some [1]) (some [2]) 1) 5).1 rfl
  · exact (iavl_c8 (Node.mk (some [3]) none none (some [7]) (some [8]) 1 2 none none 1
      true true) 5).2 rfl

/-! ### Missing child hashes abort hashing and serialization (claim C9) -/

/-- C9: on an inner node with a missing child hash, `writeHashBytes` aborts
with the panic message "Found an empty child hash" and `writeBytes` aborts as
well; with both child hashes present the abort branches are unreachable and
both functions succeed. -/
theorem iavl_c9 (sha256 : Bytes → Bytes) (node : Node) (hinner : node.isLeaf = false) :
    ((node.leftHash = none ∨ node.rightHash = none) →
      node.writeHashBytes sha256 = .error "Found an empty child hash" ∧
      (node.writeBytes).isOk = false) ∧
    (node.leftHash ≠ none → node.rightHash ≠ none →
      (node.writeHashBytes sha256).isOk = true ∧ (node.writeBytes).isOk = true) := by
  constructor
  · intro hmiss
    constructor
    · simp [Node.writeHashBytes, hinner, hmiss]
    · unfold Node.writeBytes
      rcases hmiss with hm | hm
      · simp [hinner, hm, except_isOk_error]
      · simp only [hinner, Bool.false_eq_true, if_false]
        by_cases hlm : node.leftHash = none
        · simp [hlm, except_isOk_error]
        · simp [hlm, hm, except_isOk_error]
  · intro hlm hrm
    constructor
    · simp [Node.writeHashBytes, hinner, hlm, hrm, except_isOk_ok]
    · simp [Node.writeBytes, hinner, hlm, hrm, except_isOk_ok]

/-- C9 witness: a concrete inner node with a missing right hash aborts both
writers; the same node with both hashes present succeeds in both. -/
theorem iavl_c9_witness :
    ((Node.mk (some [1]) none none (some [2]) none 1 2 none none 1 false
        false).writeHashBytes (fun b => [b.length % 256]) =
      .error "Found an empty child hash" ∧
      ((Node.mk (some [1]) none none (some [2]) none 1 2 none none 1 false
        false).writeBytes).isOk = false) ∧
    (((Node.mk (some [1]) none none (some [2]) (some [3]) 1 2 none none 1 false
        false).writeHashBytes (fun b => [b.length % 256])).isOk = true ∧
      ((Node.mk (some [1]) none none (some [2]) (some [3]) 1 2 none none 1 false
        false).writeBytes).isOk = true) := by
  constructor
  · exact (iavl_c9 (fun b => [b.length % 256])
      (Node.mk (some [1]) none none (some [2]) none 1 2 none none 1 false false)
      rfl).1 (Or.inr rfl)
  · exact (iavl_c9 (fun b => [b.length % 256])
      (Node.mk (some [1]) none none (some [2]) (some [3]) 1 2 none none 1 false false)
      rfl).2 (by simp [Node.leftHash]) (by simp [Node.rightHash])

/-! ### The frame of hashing (claim C10) -/

theorem hashFrame_refl : ∀ (node : Node), hashFrame node node
  | .mk k v hh lh rh ver sz ln rn ht sv p => by
    unfold hashFrame
    refine ⟨rfl, rfl, rfl, rfl, rfl, rfl, rfl, ?_, ?_⟩
    · cases ln with
      | none => simp
      | some l => exact hashFrame_refl l
    · cases rn with
      | none => simp
      | some r => exact hashFrame_refl r

theorem hashFrame_withHash (a b : Node) (h : GoBytes) (hf : hashFrame a b) :
    hashFrame a (b.withHash h) := by
  cases a
  cases b
  rw [hashFrame.eq_def] at hf ⊢
  exact hf

theorem except_pure_eq_ok {α ε : Type} (x : α) : (pure x : Except ε α) = Except.ok x := rfl

theorem bind_pure_triple {wb : Except String Bytes} {X : Int} {n1 : Node} {buf : Bytes}
    {cnt : Int} {nd1 : Node}
    (h : (do let b ← wb; (pure (b, X, n1) : Except String (Bytes × Int × Node)))
      = Except.ok (buf, cnt, nd1)) :
    cnt = X ∧ nd1 = n1 := by
  cases wb with
  | error e => cases h
  | ok b =>
    cases h
    exact ⟨rfl, rfl⟩

theorem hashWithCount_frame (sha256 : Bytes → Bytes) :
    ∀ (N : Nat) (node : Node), sizeOf node ≤ N →
      ∀ h c node', node.hashWithCount sha256 = .ok (h, c, node') →
        hashFrame node node' := by
  intro N
  induction N with
  | zero =>
    intro node hle
    cases node
    simp at hle
  | succ n ih =>
    intro node hle h c node' hres
    rw [Node.hashWithCount] at hres
    cases hh : node.hash with
    | some h0 =>
      rw [hh] at hres
      cases hres
      exact hashFrame_refl node
    | none =>
      rw [hh] at hres
      cases hwr : node.writeHashBytesRecursively sha256 with
      | error e =>
        rw [hwr] at hres
        cases hres
      | ok r =>
        obtain ⟨buf, cnt, nd1⟩ := r
        rw [hwr] at hres
        simp only [except_ok_bind] at hres
        cases hres
        apply hashFrame_withHash
        cases node with
        | mk k v hh0 lh rh ver sz ln rn ht sv p =>
          rw [Node.writeHashBytesRecursively.eq_def] at hwr
          simp only [] at hwr
          cases ln with
          | none =>
            cases rn with
            | none =>
              simp only [except_pure_eq_ok, except_ok_bind] at hwr
              obtain ⟨-, rfl⟩ := bind_pure_triple hwr
              exact ⟨rfl, rfl, rfl, rfl, rfl, rfl, rfl, rfl, rfl⟩
            | some rc =>
              have hszr : sizeOf rc ≤ n := by
                simp at hle
                omega
              cases hcr : rc.hashWithCount sha256 with
              | error e =>
                simp only [hcr, except_error_bind, except_pure_eq_ok,
                  except_ok_bind] at hwr
                exact Except.noConfusion hwr
              | ok rr =>
                obtain ⟨rhsh, rcnt, rc'⟩ := rr
                simp only [hcr, except_pure_eq_ok, except_ok_bind] at hwr
                obtain ⟨-, rfl⟩ := bind_pure_triple hwr
                exact ⟨rfl, rfl, rfl, rfl, rfl, rfl, rfl, rfl,
                  ih rc hszr _ _ _ hcr⟩
          | some lc =>
            have hszl : sizeOf lc ≤ n := by
              simp at hle
              omega
            cases hcl : lc.hashWithCount sha256 with
            | error e =>
              simp only [hcl, except_error_bind, except_pure_eq_ok,
                except_ok_bind] at hwr
              exact Except.noConfusion hwr
            | ok rl =>
              obtain ⟨lhsh, lcnt, lc'⟩ := rl
              cases rn with
              | none =>
                simp only [hcl, except_pure_eq_ok, except_ok_bind] at hwr
                obtain ⟨-, rfl⟩ := bind_pure_triple hwr
                exact ⟨rfl, rfl, rfl, rfl, rfl, rfl, rfl,
                  ih lc hszl _ _ _ hcl, rfl⟩
              | some rc =>
                have hszr : sizeOf rc ≤ n := by
                  simp at hle
                  omega
                cases hcr : rc.hashWithCount sha256 with
                | error e =>
                  simp only [hcl, hcr, except_error_bind, except_pure_eq_ok,
                    except_ok_bind] at hwr
                  exact Except.noConfusion hwr
                | ok rr =>
                  obtain ⟨rhsh, rcnt, rc'⟩ := rr
                  simp only [hcl, hcr, except_pure_eq_ok, except_ok_bind] at hwr
                  obtain ⟨-, rfl⟩ := bind_pure_triple hwr
                  exact ⟨rfl, rfl, rfl, rfl, rfl, rfl, rfl,
                    ih lc hszl _ _ _ hcl, ih rc hszr _ _ _ hcr⟩

/-- C10: hashing is store-free and frame-bounded.  `_hash` and `hashWithCount`
take no tree or node-database argument (their signatures above mirror the Go
methods, which read no backend); `hashWithCount` recurses only through the
in-memory `leftNode`/`rightNode` pointers.  For a node whose hash is already
set it returns `(hash, 0)` and the node unchanged; whenever it succeeds, the
returned node is `hashFrame`-related to the input: every field other than
`hash` is preserved except that `leftHash`/`rightHash` may be overwritten
where the corresponding in-memory child exists, a child referenced only by
hash keeps its stored hash untouched, and the child subtrees are related
recursively. -/
theorem iavl_c10 (sha256 : Bytes → Bytes) (node : Node) :
    (∀ h, node.hash = some h → node.hashWithCount sha256 = .ok (h, 0, node)) ∧
    (∀ h c node', node.hashWithCount sha256 = .ok (h, c, node') →
      hashFrame node node') := by
  constructor
  · intro h hh
    rw [Node.hashWithCount, hh]
  · intro h c node' hres
    exact hashWithCount_frame sha256 (sizeOf node) node le_rfl h c node' hres

/-- C10 witness: an already-hashed concrete leaf is returned unchanged with
count 0, and hashing a concrete two-leaf tree (with a constant stand-in hash
function) yields a frame-related node. -/
theorem iavl_c10_witness :
    Node.hashWithCount (fun _ => [7])
      (Node.mk (some [1]) (some [2]) (some [9]) none none 1 1 none none 0 false false) =
      .ok ([9], 0, Node.mk (some [1]) (some [2]) (some [9]) none none 1 1 none none 0
        false false) ∧
    hashFrame
      (Node.mk (some [2]) none none (some [7]) (some [8]) 1 2
        (some (Node.mk (some [1]) (some [10]) none none none 1 1 none none 0 false false))
        (some (Node.mk (some [2]) (some [20]) none none none 1 1 none none 0 false false))
        1 false false)
      (Node.mk (some [2]) none (some [7]) (some [7]) (some [7]) 1 2
        (some (Node.mk (some [1]) (some [10]) (some [7]) none none 1 1 none none 0
          false false))
        (some (Node.mk (some [2]) (some [20]) (some [7]) none none 1 1 none none 0
          false false))
        1 false false) := by
  constructor
  · exact (iavl_c10 (fun _ => [7])
      (Node.mk (some [1]) (some [2]) (some [9]) none none 1 1 none none 0 false
        false)).1 [9] rfl
  · refine (iavl_c10 (fun _ => [7])
      (Node.mk (some [2]) none none (some [7]) (some [8]) 1 2
        (some (Node.mk (some [1]) (some [10]) none none none 1 1 none none 0 false
          false))
        (some (Node.mk (some [2]) (some [20]) none none none 1 1 none none 0 false
          false))
        1 false false)).2 [7] 3 _ ?_
    simp only [Node.hashWithCount, Node.writeHashBytesRecursively, Node.hash,
      Node.writeHashBytes, Node.isLeaf, Node.height, Node.size, Node.version, Node.key,
      Node.value, Node.leftHash, Node.rightHash, Node.withHash]
    rfl

/-! ### Order lemmas for byte-string comparison -/

theorem bytesCompare_refl (a : Bytes) : bytesCompare a a = .eq := by
  induction a with
  | nil => rfl
  | cons x xs ih => simp [bytesCompare, ih]

theorem bytesCompare_eq_iff {a b : Bytes} : bytesCompare a b = .eq ↔ a = b := by
  constructor
  · intro h
    induction a generalizing b with
    | nil =>
      cases b with
      | nil => rfl
      | cons y ys => simp [bytesCompare] at h
    | cons x xs ih =>
      cases b with
      | nil => simp [bytesCompare] at h
      | cons y ys =>
        simp only [bytesCompare] at h
        by_cases hxy : x < y
        · rw [if_pos hxy] at h
          cases h
        · rw [if_neg hxy] at h
          by_cases hyx : y < x
          · rw [if_pos hyx] at h
            cases h
          · rw [if_neg hyx] at h
            have : x = y := by omega
            rw [this, ih h]
  · rintro rfl
    exact bytesCompare_refl a

theorem bytesCompare_swap (a b : Bytes) :
    bytesCompare b a = (bytesCompare a b).swap := by
  induction a generalizing b with
  | nil =>
    cases b with
    | nil => rfl
    | cons y ys => rfl
  | cons x xs ih =>
    cases b with
    | nil => rfl
    | cons y ys =>
      simp only [bytesCompare]
      rcases Nat.lt_trichotomy x y with h | h | h
      · rw [if_neg (by omega : ¬y < x), if_pos h, if_pos h]
        rfl
      · subst h
        rw [if_neg (lt_irrefl x), if_neg (lt_irrefl x), if_neg (lt_irrefl x),
          if_neg (lt_irrefl x)]
        exact ih ys
      · rw [if_pos h, if_neg (by omega : ¬x < y), if_pos h]
        rfl

theorem bytesCompare_gt_iff {a b : Bytes} :
    bytesCompare a b = .gt ↔ bytesCompare b a = .lt := by
  rw [bytesCompare_swap b a]
  cases hba : bytesCompare b a <;> simp [Ordering.swap]

theorem bytesCompare_lt_trans : ∀ {a b c : Bytes}, bytesCompare a b = .lt →
    bytesCompare b c = .lt → bytesCompare a c = .lt := by
  intro a
  induction a with
  | nil =>
    intro b c h1 h2
    cases c with
    | nil =>
      cases b with
      | nil => simp [bytesCompare] at h1
      | cons y ys => simp [bytesCompare] at h2
    | cons z zs => simp [bytesCompare]
  | cons x xs ih =>
    intro b c h1 h2
    cases b with
    | nil => simp [bytesCompare] at h1
    | cons y ys =>
      cases c with
      | nil => simp [bytesCompare] at h2
      | cons z zs =>
        simp only [bytesCompare] at h1 h2 ⊢
        by_cases hxy : x < y
        · by_cases hyz : y < z
          · rw [if_pos (by omega : x < z)]
          · rw [if_neg hyz] at h2
            by_cases hzy : z < y
            · rw [if_pos hzy] at h2
              cases h2
            · rw [if_pos (by omega : x < z)]
        · rw [if_neg hxy] at h1
          by_cases hyx : y < x
          · rw [if_pos hyx] at h1
            cases h1
          · rw [if_neg hyx] at h1
            by_cases hyz : y < z
            · rw [if_pos (by omega : x < z)]
            · rw [if_neg hyz] at h2
              by_cases hzy : z < y
              · rw [if_pos hzy] at h2
                cases h2
              · rw [if_neg hzy] at h2
                rw [if_neg (by omega : ¬x < z), if_neg (by omega : ¬z < x)]
                exact ih h1 h2

theorem bytesCompare_not_gt_iff {a b : Bytes} :
    bytesCompare a b ≠ .gt ↔ bytesCompare a b = .lt ∨ a = b := by
  cases h : bytesCompare a b <;>
    simp_all [← bytesCompare_eq_iff, h]

theorem bytesCompare_lt_of_lt_of_le {a b c : Bytes} (h1 : bytesCompare a b = .lt)
    (h2 : bytesCompare b c ≠ .gt) : bytesCompare a c = .lt := by
  rcases bytesCompare_not_gt_iff.mp h2 with h | rfl
  · exact bytesCompare_lt_trans h1 h
  · exact h1

theorem bytesCompare_lt_of_le_of_lt {a b c : Bytes} (h1 : bytesCompare a b ≠ .gt)
    (h2 : bytesCompare b c = .lt) : bytesCompare a c = .lt := by
  rcases bytesCompare_not_gt_iff.mp h1 with h | rfl
  · exact bytesCompare_lt_trans h h2
  · exact h2

theorem bytesCompare_lt_irrefl (a : Bytes) : bytesCompare a a ≠ .lt := by
  simp [bytesCompare_refl]

theorem bytesCompare_lt_asymm {a b : Bytes} (h : bytesCompare a b = .lt) :
    bytesCompare b a ≠ .lt := by
  intro h2
  exact absurd (bytesCompare_lt_trans h h2) (bytesCompare_lt_irrefl a)

/-! ### Structure of the invariants -/

theorem ordering_beq_iff {o o' : Ordering} : (o == o') = true ↔ o = o' := by
  cases o <;> cases o' <;> decide

theorem ordering_beq_false_iff {o o' : Ordering} : (o == o') = false ↔ ¬o = o' := by
  cases o <;> cases o' <;> decide

theorem leafEntries_leaf (k v hh lh rh : GoBytes) (ver sz : Int) (ln rn : Option Node)
    (ht : Int) (sv p : Bool) (hht : ht = 0) :
    (Node.mk k v hh lh rh ver sz ln rn ht sv p).leafEntries = [(goBytes k, v)] := by
  subst hht
  rw [Node.leafEntries.eq_def]
  simp

theorem leafEntries_inner (k v hh lh rh : GoBytes) (ver sz : Int) (l r : Node)
    (ht : Int) (sv p : Bool) (hht : ht ≠ 0) :
    (Node.mk k v hh lh rh ver sz (some l) (some r) ht sv p).leafEntries =
      l.leafEntries ++ r.leafEntries := by
  rw [Node.leafEntries.eq_def]
  simp [hht]

theorem goodB_leaf_size (k v hh lh rh : GoBytes) (ver sz : Int) (ln rn : Option Node)
    (ht : Int) (sv p : Bool) (hht : ht = 0)
    (hg : (Node.mk k v hh lh rh ver sz ln rn ht sv p).goodB = true) : sz = 1 := by
  subst hht
  rw [Node.goodB, Node.sizesOkB.eq_def] at hg
  simp only [Bool.and_eq_true, beq_iff_eq] at hg
  rw [leafEntries_leaf k v hh lh rh ver sz ln rn 0 sv p rfl] at hg
  simpa using hg.1.2.1

theorem goodB_inner (k v hh lh rh : GoBytes) (ver sz : Int) (ln rn : Option Node)
    (ht : Int) (sv p : Bool) (hht : ht ≠ 0)
    (hg : (Node.mk k v hh lh rh ver sz ln rn ht sv p).goodB = true) :
    ∃ l r, ln = some l ∧ rn = some r ∧ l.goodB = true ∧ r.goodB = true ∧
      sz = ((l.leafEntries.length + r.leafEntries.length : Nat) : Int) ∧
      r.size = (r.leafEntries.length : Int) ∧
      (∀ a ∈ l.leafKeys, bytesCompare a (goBytes k) = .lt) ∧
      (∀ a ∈ r.leafKeys, ¬bytesCompare (goBytes k) a = .gt) ∧
      goBytes k ∈ r.leafKeys := by
  have hbeq : (ht == 0) = false := by simp [hht]
  rw [Node.goodB] at hg
  simp only [Bool.and_eq_true] at hg
  obtain ⟨⟨hres, hsz⟩, hord⟩ := hg
  cases ln with
  | none =>
    rw [Node.resolvedB.eq_def] at hres
    simp [hbeq] at hres
  | some l =>
    cases rn with
    | none =>
      rw [Node.resolvedB.eq_def] at hres
      simp [hbeq] at hres
    | some r =>
      rw [Node.resolvedB.eq_def] at hres
      rw [Node.sizesOkB.eq_def] at hsz
      rw [Node.orderedB.eq_def] at hord
      simp only [hbeq, Bool.false_or, Bool.and_eq_true, if_false, Bool.false_eq_true,
        List.all_eq_true, beq_iff_eq, Bool.not_eq_true'] at hres hsz hord
      refine ⟨l, r, rfl, rfl, ?_, ?_, ?_, ?_, ?_, ?_, ?_⟩
      · rw [Node.goodB]
        simp only [Bool.and_eq_true]
        exact ⟨⟨hres.1, hsz.2.1⟩, hord.1.1⟩
      · rw [Node.goodB]
        simp only [Bool.and_eq_true]
        exact ⟨⟨hres.2, hsz.2.2⟩, hord.2.1.1⟩
      · have h1 := hsz.1
        rw [leafEntries_inner k v hh lh rh ver sz l r ht sv p hht] at h1
        simpa using h1
      · cases r with
        | mk rk rv rhh rlh rrh rver rsz rln rrn rht rsv rp =>
          have h2 := hsz.2.2
          rw [Node.sizesOkB.eq_def] at h2
          simp only [Bool.and_eq_true, beq_iff_eq] at h2
          simpa [Node.size] using h2.1
      · intro a ha
        exact ordering_beq_iff.mp (by simpa using hord.1.2 a ha)
      · intro a ha
        exact ordering_beq_false_iff.mp (by simpa using hord.2.1.2 a ha)
      · exact List.mem_of_elem_eq_true hord.2.2

theorem leafKeys_inner (k v hh lh rh : GoBytes) (ver sz : Int) (l r : Node)
    (ht : Int) (sv p : Bool) (hht : ht ≠ 0) :
    (Node.mk k v hh lh rh ver sz (some l) (some r) ht sv p).leafKeys =
      l.leafKeys ++ r.leafKeys := by
  rw [Node.leafKeys, leafEntries_inner k v hh lh rh ver sz l r ht sv p hht]
  simp [Node.leafKeys]

theorem leafKeys_leaf (k v hh lh rh : GoBytes) (ver sz : Int) (ln rn : Option Node)
    (ht : Int) (sv p : Bool) (hht : ht = 0) :
    (Node.mk k v hh lh rh ver sz ln rn ht sv p).leafKeys = [goBytes k] := by
  rw [Node.leafKeys, leafEntries_leaf k v hh lh rh ver sz ln rn ht sv p hht]
  rfl

theorem has_mem_aux (N : Nat) : ∀ (node : Node), sizeOf node ≤ N →
    node.goodB = true → ∀ key : GoBytes,
    node.has key = some (decide (goBytes key ∈ node.leafKeys)) := by
  induction N with
  | zero =>
    intro node hle
    cases node
    simp at hle
  | succ n ih =>
    intro node hle hg key
    cases node with
    | mk k v hh lh rh ver sz ln rn ht sv p =>
      rw [Node.has.eq_def]
      simp only []
      by_cases heq : bytesEqual k key = true
      · rw [if_pos heq]
        have hkk : goBytes k = goBytes key := by
          simpa [bytesEqual] using heq
        by_cases hht : ht = 0
        · rw [leafKeys_leaf k v hh lh rh ver sz ln rn ht sv p hht]
          simp [hkk]
        · obtain ⟨l, r, hln, hrn, -, -, -, -, -, -, hmem⟩ :=
            goodB_inner k v hh lh rh ver sz ln rn ht sv p hht hg
          subst hln
          subst hrn
          rw [leafKeys_inner k v hh lh rh ver sz l r ht sv p hht]
          have : goBytes key ∈ l.leafKeys ++ r.leafKeys := by
            rw [← hkk]
            exact List.mem_append_right _ hmem
          simp [this]
      · rw [if_neg heq]
        have hne : goBytes k ≠ goBytes key := by
          simpa [bytesEqual] using heq
        by_cases hht : ht = 0
        · have hbeq : (ht == 0) = true := by simp [hht]
          rw [if_pos hbeq, leafKeys_leaf k v hh lh rh ver sz ln rn ht sv p hht]
          simp [Ne.symm hne]
        · have hbeq : (ht == 0) = false := by simp [hht]
          rw [if_neg (by simp [hbeq] : ¬(ht == 0) = true)]
          obtain ⟨l, r, hln, hrn, hgl, hgr, -, -, hordl, hordr, hmem⟩ :=
            goodB_inner k v hh lh rh ver sz ln rn ht sv p hht hg
          subst hln
          subst hrn
          rw [leafKeys_inner k v hh lh rh ver sz l r ht sv p hht]
          have hszl : sizeOf l ≤ n := by
            simp at hle
            omega
          have hszr : sizeOf r ≤ n := by
            simp at hle
            omega
          by_cases hlt : bytesCompare (goBytes key) (goBytes k) = .lt
          · rw [if_pos hlt]
            simp only [ih l hszl hgl key]
            have hnr : goBytes key ∉ r.leafKeys := by
              intro hmemr
              have h1 : ¬bytesCompare (goBytes k) (goBytes key) = .gt := hordr _ hmemr
              exact h1 (bytesCompare_gt_iff.mpr hlt)
            congr 1
            simp [List.mem_append, hnr]
          · rw [if_neg hlt]
            simp only [ih r hszr hgr key]
            have hgt : bytesCompare (goBytes key) (goBytes k) = .gt := by
              cases hc : bytesCompare (goBytes key) (goBytes k) with
              | lt => exact absurd hc hlt
              | eq => exact absurd (bytesCompare_eq_iff.mp hc) (fun h => hne h.symm)
              | gt => rfl
            have hnl : goBytes key ∉ l.leafKeys := by
              intro hmeml
              have h1 := hordl _ hmeml
              rw [h1] at hgt
              cases hgt
            congr 1
            simp [List.mem_append, hnl]

theorem rankOf_append (k v hh lh rh : GoBytes) (ver sz : Int) (l r : Node)
    (ht : Int) (sv p : Bool) (hht : ht ≠ 0) (key : Bytes) :
    (Node.mk k v hh lh rh ver sz (some l) (some r) ht sv p).rankOf key =
      l.rankOf key + r.rankOf key := by
  unfold Node.rankOf
  rw [leafKeys_inner k v hh lh rh ver sz l r ht sv p hht, List.countP_append]

theorem lookupLeaf_append (k v hh lh rh : GoBytes) (ver sz : Int) (l r : Node)
    (ht : Int) (sv p : Bool) (hht : ht ≠ 0) (key : Bytes) :
    (Node.mk k v hh lh rh ver sz (some l) (some r) ht sv p).lookupLeaf key =
      match (l.leafEntries.find? (fun e => e.1 == key)).or
        (r.leafEntries.find? (fun e => e.1 == key)) with
      | some e => e.2
      | none => none := by
  unfold Node.lookupLeaf
  rw [leafEntries_inner k v hh lh rh ver sz l r ht sv p hht, List.find?_append]

theorem find?_entries_eq_none_of_ne (t : Node) (key : Bytes)
    (h : ∀ a ∈ t.leafKeys, a ≠ key) :
    t.leafEntries.find? (fun e => e.1 == key) = none := by
  rw [List.find?_eq_none]
  intro e he
  have : e.1 ∈ t.leafKeys := by
    unfold Node.leafKeys
    exact List.mem_map_of_mem Prod.fst he
  simpa using h e.1 this

theorem get_rank_aux (N : Nat) : ∀ (node : Node), sizeOf node ≤ N →
    node.goodB = true → ∀ key : GoBytes,
    node.get key = some (((node.rankOf (goBytes key) : Nat) : Int),
      node.lookupLeaf (goBytes key)) := by
  induction N with
  | zero =>
    intro node hle
    cases node
    simp at hle
  | succ n ih =>
    intro node hle hg key
    cases node with
    | mk k v hh lh rh ver sz ln rn ht sv p =>
      rw [Node.get.eq_def]
      simp only []
      by_cases hht : ht = 0
      · have hbeq : (ht == 0) = true := by simp [hht]
        rw [if_pos hbeq]
        unfold Node.rankOf Node.lookupLeaf
        rw [leafKeys_leaf k v hh lh rh ver sz ln rn ht sv p hht,
          leafEntries_leaf k v hh lh rh ver sz ln rn ht sv p hht]
        cases hc : bytesCompare (goBytes k) (goBytes key) with
        | lt =>
          have hne : ¬goBytes k = goBytes key := fun h =>
            absurd (bytesCompare_eq_iff.mpr h) (by simp [hc])
          have hb : (goBytes k == goBytes key) = false := beq_eq_false_iff_ne.mpr hne
          simp [leafGetSwitch, List.countP_cons, List.find?, hc, hb, ordering_beq_iff]
        | gt =>
          have hne : ¬goBytes k = goBytes key := fun h =>
            absurd (bytesCompare_eq_iff.mpr h) (by simp [hc])
          have hb : (goBytes k == goBytes key) = false := beq_eq_false_iff_ne.mpr hne
          simp [leafGetSwitch, List.countP_cons, List.find?, hc, hb, ordering_beq_iff]
        | eq =>
          have hkk : goBytes k = goBytes key := bytesCompare_eq_iff.mp hc
          have hb : (goBytes k == goBytes key) = true := beq_iff_eq.mpr hkk
          simp [leafGetSwitch, List.countP_cons, List.find?, hc, hb, ordering_beq_iff]
      · have hbeq : (ht == 0) = false := by simp [hht]
        rw [if_neg (by simp [hbeq] : ¬(ht == 0) = true)]
        obtain ⟨l, r, hln, hrn, hgl, hgr, hsz, hrsz, hordl, hordr, hmem⟩ :=
          goodB_inner k v hh lh rh ver sz ln rn ht sv p hht hg
        subst hln
        subst hrn
        have hszl : sizeOf l ≤ n := by
          simp at hle
          omega
        have hszr : sizeOf r ≤ n := by
          simp at hle
          omega
        rw [rankOf_append k v hh lh rh ver sz l r ht sv p hht,
          lookupLeaf_append k v hh lh rh ver sz l r ht sv p hht]
        by_cases hlt : bytesCompare (goBytes key) (goBytes k) = .lt
        · rw [if_pos hlt]
          simp only [ih l hszl hgl key]
          have hnr : ∀ a ∈ r.leafKeys, ¬bytesCompare a (goBytes key) = .lt := by
            intro a ha hcon
            have h1 : ¬bytesCompare (goBytes k) a = .gt := hordr _ ha
            have h2 : bytesCompare a (goBytes k) = .lt := bytesCompare_lt_trans hcon hlt
            exact h1 (bytesCompare_gt_iff.mpr h2)
          have hr0 : r.rankOf (goBytes key) = 0 := by
            unfold Node.rankOf
            rw [List.countP_eq_zero]
            intro a ha
            simpa [ordering_beq_false_iff] using hnr a ha
          have hrfind : r.leafEntries.find? (fun e => e.1 == goBytes key) = none := by
            apply find?_entries_eq_none_of_ne
            intro a ha hak
            have h1 : ¬bytesCompare (goBytes k) a = .gt := hordr _ ha
            have h2 : bytesCompare (goBytes key) a = .lt :=
              bytesCompare_lt_of_lt_of_le hlt h1
            rw [hak, bytesCompare_refl] at h2
            cases h2
          rw [hr0, hrfind]
          unfold Node.lookupLeaf
          cases hfl : l.leafEntries.find? (fun e => e.1 == goBytes key) with
          | none => simp [Option.or]
          | some e => simp [Option.or]
        · rw [if_neg hlt]
          simp only [ih r hszr hgr key]
          have hknk : ¬bytesCompare (goBytes k) (goBytes key) = .gt := by
            intro hcon
            exact hlt (bytesCompare_gt_iff.mp hcon)
          have hl1 : ∀ a ∈ l.leafKeys, bytesCompare a (goBytes key) = .lt := by
            intro a ha
            exact bytesCompare_lt_of_lt_of_le (hordl _ ha) hknk
          have hlfull : l.rankOf (goBytes key) = l.leafKeys.length := by
            unfold Node.rankOf
            rw [List.countP_eq_length]
            intro a ha
            simpa [ordering_beq_iff] using hl1 a ha
          have hlfind : l.leafEntries.find? (fun e => e.1 == goBytes key) = none := by
            apply find?_entries_eq_none_of_ne
            intro a ha hak
            have h2 := hl1 a ha
            rw [hak, bytesCompare_refl] at h2
            cases h2
          rw [hlfind]
          have hlen : l.leafKeys.length = l.leafEntries.length := by
            unfold Node.leafKeys
            exact List.length_map _ _
          have hfst : ((l.rankOf (goBytes key) + r.rankOf (goBytes key) : Nat) : Int) =
              ((r.rankOf (goBytes key) : Nat) : Int) + (sz - r.size) := by
            rw [hlfull, hlen, hsz, hrsz]
            push_cast
            ring
          simp only [Option.map_some']
          rw [← hfst]
          unfold Node.lookupLeaf
          simp [Option.or]

/-- Claim C3: for every node satisfying the data-model invariants (`goodB`:
children resolved, sizes consistent, BST-ordered with each inner key the
smallest key of its right subtree), `get` returns the zero-based in-order rank
at which the key sits or would be inserted together with the stored value when
the key is present (`nil` otherwise); moreover on an inner node it recurses
left when `key < node.key` and right otherwise, offsetting the right result's
rank by `node.size - rightChild.size`. -/
theorem iavl_c3 (node : Node) (hg : node.goodB = true) (key : GoBytes) :
    node.get key = some (((node.rankOf (goBytes key) : Nat) : Int),
      node.lookupLeaf (goBytes key)) ∧
    (∀ l r, node.leftNode = some l → node.rightNode = some r → ¬node.height = 0 →
      node.get key =
        if bytesCompare (goBytes key) (goBytes node.key) = .lt then l.get key
        else (r.get key).map (fun q => (q.1 + (node.size - r.size), q.2))) := by
  refine ⟨get_rank_aux (sizeOf node) node le_rfl hg key, ?_⟩
  intro l r hl hr hht
  cases node with
  | mk k v hh lh rh ver sz ln rn ht sv p =>
    simp only [Node.leftNode] at hl
    simp only [Node.rightNode] at hr
    simp only [Node.height] at hht
    subst hl
    subst hr
    have hbeq : (ht == 0) = false := by simp [hht]
    rw [Node.get.eq_def]
    simp only [Node.key, Node.size]
    rw [if_neg (by simp [hbeq] : ¬(ht == 0) = true)]

/-- Witness for C3 at a concrete two-leaf tree: the invariant holds, and `get`
finds key `[2]` at rank 1 with its value `[8]`. -/
theorem iavl_c3_witness :
    (Node.mk (some [2]) none none (some [9]) (some [10]) 1 2
        (some (Node.mk (some [1]) (some [7]) none none none 1 1 none none 0 false false))
        (some (Node.mk (some [2]) (some [8]) none none none 1 1 none none 0 false false))
        1 false false).goodB = true ∧
    (Node.mk (some [2]) none none (some [9]) (some [10]) 1 2
        (some (Node.mk (some [1]) (some [7]) none none none 1 1 none none 0 false false))
        (some (Node.mk (some [2]) (some [8]) none none none 1 1 none none 0 false false))
        1 false false).get (some [2]) = some (1, some [8]) := by
  have hg : (Node.mk (some [2]) none none (some [9]) (some [10]) 1 2
      (some (Node.mk (some [1]) (some [7]) none none none 1 1 none none 0 false false))
      (some (Node.mk (some [2]) (some [8]) none none none 1 1 none none 0 false false))
      1 false false).goodB = true := by decide
  have h := iavl_c3 (Node.mk (some [2]) none none (some [9]) (some [10]) 1 2
      (some (Node.mk (some [1]) (some [7]) none none none 1 1 none none 0 false false))
      (some (Node.mk (some [2]) (some [8]) none none none 1 1 none none 0 false false))
      1 false false) hg (some [2])
  refine ⟨hg, ?_⟩
  rw [h.1]
  decide

/-- Claim C6: for every subtree satisfying the data-model invariants (`goodB`:
BST ordering with each inner node's key the smallest key of its right subtree,
resolved children, consistent sizes), `has` returns `true` iff the key exists
as a leaf key of that subtree. -/
theorem iavl_c6 (node : Node) (hg : node.goodB = true) (key : GoBytes) :
    node.has key = some (decide (goBytes key ∈ node.leafKeys)) :=
  has_mem_aux (sizeOf node) node le_rfl hg key

/-- Witness for C6 at a concrete two-leaf tree: the invariant holds, present
key `[1]` yields `true` and absent key `[3]` yields `false`. -/
theorem iavl_c6_witness :
    (Node.mk (some [2]) none none (some [9]) (some [10]) 2 2
        (some (Node.mk (some [1]) (some [5]) none none none 2 1 none none 0 false false))
        (some (Node.mk (some [2]) (some [6]) none none none 2 1 none none 0 false false))
        1 false false).goodB = true ∧
    (Node.mk (some [2]) none none (some [9]) (some [10]) 2 2
        (some (Node.mk (some [1]) (some [5]) none none none 2 1 none none 0 false false))
        (some (Node.mk (some [2]) (some [6]) none none none 2 1 none none 0 false false))
        1 false false).has (some [1]) = some true ∧
    (Node.mk (some [2]) none none (some [9]) (some [10]) 2 2
        (some (Node.mk (some [1]) (some [5]) none none none 2 1 none none 0 false false))
        (some (Node.mk (some [2]) (some [6]) none none none 2 1 none none 0 false false))
        1 false false).has (some [3]) = some false := by
  have hg : (Node.mk (some [2]) none none (some [9]) (some [10]) 2 2
      (some (Node.mk (some [1]) (some [5]) none none none 2 1 none none 0 false false))
      (some (Node.mk (some [2]) (some [6]) none none none 2 1 none none 0 false false))
      1 false false).goodB = true := by decide
  refine ⟨hg, ?_, ?_⟩
  · rw [iavl_c6 _ hg (some [1])]
    decide
  · rw [iavl_c6 _ hg (some [3])]
    decide

/-- Monadic bind on `Option` applied to `some`. -/
theorem option_monad_bind (a : α) (f : α → Option β) : ((some a : Option α) >>= f) = f a := rfl

/-- `reportedKeys` distributes over trace concatenation. -/
theorem reportedKeys_append (a b : List (Node × Nat)) :
    reportedKeys (a ++ b) = reportedKeys a ++ reportedKeys b := by
  unfold reportedKeys
  rw [List.filter_append, List.map_append]

/-- The empty trace reports no keys. -/
theorem reportedKeys_nil : reportedKeys [] = [] := rfl

/-- A (possibly skipped) callback entry for an inner node reports no keys. -/
theorem reportedKeys_inner_ite (c : Prop) [Decidable c] (nd : Node) (d : Nat)
    (h : nd.isLeaf = false) :
    reportedKeys (if c then [(nd, d)] else []) = [] := by
  split <;> simp [reportedKeys, h]

/-- When the left-descent guard fails, every left-subtree key (all `< node.key`)
is below `start`, hence outside the range. -/
theorem filter_out_left (start end_ : GoBytes) (incl : Bool) (k : GoBytes)
    (hAS : afterStartB start k = false) (L : List Bytes)
    (hord : ∀ a ∈ L, bytesCompare a (goBytes k) = .lt) :
    L.filter (inRangeB start end_ incl) = [] := by
  rw [List.filter_eq_nil_iff]
  intro a ha
  unfold afterStartB at hAS
  simp only [Bool.or_eq_false_iff] at hAS
  have hs : ¬bytesCompare (goBytes start) (goBytes k) = .lt := by
    simpa [ordering_beq_false_iff] using hAS.2
  have hk : ¬bytesCompare (goBytes k) (goBytes start) = .gt := fun h =>
    hs (bytesCompare_gt_iff.mp h)
  have hlt : bytesCompare a (goBytes start) = .lt :=
    bytesCompare_lt_of_lt_of_le (hord a ha) hk
  have hgt : bytesCompare (goBytes start) a = .gt := bytesCompare_gt_iff.mpr hlt
  unfold inRangeB
  simp [hAS.1, hgt, show (Ordering.gt == Ordering.gt) = true from rfl]

/-- When the right-descent guard fails, every right-subtree key (all
`≥ node.key`) is beyond the end bound, hence outside the range. -/
theorem filter_out_right (start end_ : GoBytes) (incl : Bool) (k : GoBytes)
    (hBE : beforeEndB end_ k incl = false) (L : List Bytes)
    (hord : ∀ a ∈ L, ¬bytesCompare (goBytes k) a = .gt) :
    L.filter (inRangeB start end_ incl) = [] := by
  rw [List.filter_eq_nil_iff]
  intro a ha
  unfold beforeEndB at hBE
  unfold inRangeB
  cases incl with
  | true =>
    simp only [if_true, Bool.or_eq_false_iff, Bool.not_eq_false'] at hBE
    have hg : bytesCompare (goBytes k) (goBytes end_) = .gt := ordering_beq_iff.mp hBE.2
    have hel : bytesCompare (goBytes end_) (goBytes k) = .lt := bytesCompare_gt_iff.mp hg
    have hea : bytesCompare (goBytes end_) a = .lt :=
      bytesCompare_lt_of_lt_of_le hel (hord a ha)
    have hag : bytesCompare a (goBytes end_) = .gt := bytesCompare_gt_iff.mpr hea
    simp [hBE.1, hag, show (Ordering.gt == Ordering.gt) = true from rfl]
  | false =>
    simp only [Bool.false_eq_true, if_false, Bool.or_eq_false_iff] at hBE
    have hne : ¬bytesCompare (goBytes k) (goBytes end_) = .lt := by
      simpa [ordering_beq_false_iff] using hBE.2
    have hna : (bytesCompare a (goBytes end_) == Ordering.lt) = false := by
      rw [ordering_beq_false_iff]
      intro hlt
      exact hne (bytesCompare_lt_of_le_of_lt (hord a ha) hlt)
    simp [hBE.1, hna]

/-- Core C7 lemma: under the data-model invariants, a non-stopping ranged
traversal succeeds without stopping and reports exactly the in-range leaf keys,
in order (reversed when descending). -/
theorem traverse_range_aux (N : Nat) : ∀ (node : Node), sizeOf node ≤ N →
    node.goodB = true → ∀ (start end_ : GoBytes) (asc incl : Bool) (d : Nat) (post : Bool),
    ∃ tr, node.traverseInRange start end_ asc incl d post (fun _ _ => false) =
        some (tr, false) ∧
      reportedKeys tr =
        (if asc = true then node.leafKeys.filter (inRangeB start end_ incl)
         else (node.leafKeys.filter (inRangeB start end_ incl)).reverse) := by
  induction N with
  | zero =>
    intro node hle
    cases node
    simp at hle
  | succ n ih =>
    intro node hle hg start end_ asc incl d post
    cases node with
    | mk k v hh lh rh ver sz ln rn ht sv p =>
      by_cases hht : ht = 0
      · subst hht
        rw [leafKeys_leaf k v hh lh rh ver sz ln rn 0 sv p rfl]
        rw [Node.traverseInRange.eq_def]
        simp only [show ((0 : Int) == 0) = true from rfl, Bool.not_true, Bool.false_or,
          eq_self_iff_true, if_true, ite_self, Bool.false_eq_true, if_false,
          Option.pure_def, option_monad_bind, Bool.and_true, List.append_nil,
          List.filter_cons, List.filter_nil]
        rw [show ((Option.isNone start || !(bytesCompare (goBytes start) (goBytes k) == Ordering.gt)) &&
            if incl = true then Option.isNone end_ || !(bytesCompare (goBytes k) (goBytes end_) == Ordering.gt)
            else Option.isNone end_ || (bytesCompare (goBytes k) (goBytes end_) == Ordering.lt)) =
          inRangeB start end_ incl (goBytes k) from rfl]
        refine ⟨_, rfl, ?_⟩
        generalize inRangeB start end_ incl (goBytes k) = C
        cases C <;> cases post <;> cases asc <;>
          simp [reportedKeys, Node.isLeaf, Node.height, Node.key]
      · have hbeq : (ht == 0) = false := by simp [hht]
        obtain ⟨l, r, hln, hrn, hgl, hgr, hsz, hrsz, hordl, hordr, hmem⟩ :=
          goodB_inner k v hh lh rh ver sz ln rn ht sv p hht hg
        subst hln
        subst hrn
        have hszl : sizeOf l ≤ n := by
          simp at hle
          omega
        have hszr : sizeOf r ≤ n := by
          simp at hle
          omega
        obtain ⟨trl, heql, hrepl⟩ := ih l hszl hgl start end_ asc incl ((d + 1) % 256) post
        obtain ⟨trr, heqr, hrepr⟩ := ih r hszr hgr start end_ asc incl ((d + 1) % 256) post
        rw [leafKeys_inner k v hh lh rh ver sz l r ht sv p hht]
        rw [Node.traverseInRange.eq_def]
        simp only [hbeq, Bool.not_false, Bool.true_or, Bool.and_true, ite_self,
          Bool.false_eq_true, if_false, Option.pure_def, option_monad_bind]
        rw [heql, heqr]
        rw [show (Option.isNone start || (bytesCompare (goBytes start) (goBytes k) == Ordering.lt)) =
          afterStartB start k from rfl]
        rw [show (if incl = true then Option.isNone end_ || !(bytesCompare (goBytes k) (goBytes end_) == Ordering.gt)
            else Option.isNone end_ || (bytesCompare (goBytes k) (goBytes end_) == Ordering.lt)) =
          beforeEndB end_ k incl from rfl]
        have hleaf : (Node.mk k v hh lh rh ver sz (some l) (some r) ht sv p).isLeaf = false := by
          simp [Node.isLeaf, Node.height, hbeq]
        cases asc with
        | true =>
          cases hA : afterStartB start k with
          | false =>
            cases hB : beforeEndB end_ k incl with
            | false =>
              simp only [hA, hB, Bool.false_eq_true, if_false, eq_self_iff_true, if_true,
                option_monad_bind, List.append_nil, List.nil_append]
              refine ⟨_, rfl, ?_⟩
              simp [reportedKeys_append, reportedKeys_inner_ite, hleaf, reportedKeys_nil,
                List.filter_append, hrepl, hrepr,
                filter_out_left start end_ incl k hA l.leafKeys hordl,
                filter_out_right start end_ incl k hB r.leafKeys hordr]
            | true =>
              simp only [hA, hB, Bool.false_eq_true, if_false, eq_self_iff_true, if_true,
                option_monad_bind, List.append_nil, List.nil_append]
              refine ⟨_, rfl, ?_⟩
              simp [reportedKeys_append, reportedKeys_inner_ite, hleaf, reportedKeys_nil,
                List.filter_append, hrepl, hrepr,
                filter_out_left start end_ incl k hA l.leafKeys hordl]
          | true =>
            cases hB : beforeEndB end_ k incl with
            | false =>
              simp only [hA, hB, Bool.false_eq_true, if_false, eq_self_iff_true, if_true,
                option_monad_bind, List.append_nil, List.nil_append]
              refine ⟨_, rfl, ?_⟩
              simp [reportedKeys_append, reportedKeys_inner_ite, hleaf, reportedKeys_nil,
                List.filter_append, hrepl, hrepr,
                filter_out_right start end_ incl k hB r.leafKeys hordr]
            | true =>
              simp only [hA, hB, Bool.false_eq_true, if_false, eq_self_iff_true, if_true,
                option_monad_bind, List.append_nil, List.nil_append]
              refine ⟨_, rfl, ?_⟩
              simp [reportedKeys_append, reportedKeys_inner_ite, hleaf, reportedKeys_nil,
                List.filter_append, hrepl, hrepr]
        | false =>
          cases hA : afterStartB start k with
          | false =>
            cases hB : beforeEndB end_ k incl with
            | false =>
              simp only [hA, hB, Bool.false_eq_true, if_false, eq_self_iff_true, if_true,
                option_monad_bind, List.append_nil, List.nil_append]
              refine ⟨_, rfl, ?_⟩
              simp [reportedKeys_append, reportedKeys_inner_ite, hleaf, reportedKeys_nil,
                List.filter_append, hrepl, hrepr,
                filter_out_left start end_ incl k hA l.leafKeys hordl,
                filter_out_right start end_ incl k hB r.leafKeys hordr]
            | true =>
              simp only [hA, hB, Bool.false_eq_true, if_false, eq_self_iff_true, if_true,
                option_monad_bind, List.append_nil, List.nil_append]
              refine ⟨_, rfl, ?_⟩
              simp [reportedKeys_append, reportedKeys_inner_ite, hleaf, reportedKeys_nil,
                List.filter_append, hrepl, hrepr,
                filter_out_left start end_ incl k hA l.leafKeys hordl]
          | true =>
            cases hB : beforeEndB end_ k incl with
            | false =>
              simp only [hA, hB, Bool.false_eq_true, if_false, eq_self_iff_true, if_true,
                option_monad_bind, List.append_nil, List.nil_append]
              refine ⟨_, rfl, ?_⟩
              simp [reportedKeys_append, reportedKeys_inner_ite, hleaf, reportedKeys_nil,
                List.filter_append, hrepl, hrepr,
                filter_out_right start end_ incl k hB r.leafKeys hordr]
            | true =>
              simp only [hA, hB, Bool.false_eq_true, if_false, eq_self_iff_true, if_true,
                option_monad_bind, List.append_nil, List.nil_append]
              refine ⟨_, rfl, ?_⟩
              simp [reportedKeys_append, reportedKeys_inner_ite, hleaf, reportedKeys_nil,
                List.filter_append, hrepl, hrepr]

/-- Claim C7: ranged in-order traversal prunes exactly as specified.  Part 1
(under the data-model invariants `goodB`): a non-stopping traversal reports a
leaf to the callback iff its key is in the range (`start ≤ key`, and
`key < end`, `≤` when inclusive, missing bounds unconstrained), in traversal
order.  Part 2 (any inner node): the traversal descends into the left child iff
`start == nil` or `start < node.key` (`afterStartB`) and into the right child
iff `end == nil` or `node.key < end`, `≤` when inclusive (`beforeEndB`). -/
theorem iavl_c7 (node : Node) (hg : node.goodB = true) (start end_ : GoBytes)
    (asc incl : Bool) (d : Nat) (post : Bool) :
    (∃ tr, node.traverseInRange start end_ asc incl d post (fun _ _ => false) =
        some (tr, false) ∧
      reportedKeys tr =
        (if asc = true then node.leafKeys.filter (inRangeB start end_ incl)
         else (node.leafKeys.filter (inRangeB start end_ incl)).reverse)) ∧
    (∀ l r, node.leftNode = some l → node.rightNode = some r → ¬node.height = 0 →
      node.traverseInRange start end_ asc incl d post (fun _ _ => false) =
        (if afterStartB start node.key = true
           then l.traverseInRange start end_ asc incl ((d + 1) % 256) post (fun _ _ => false)
           else some ([], false)).bind (fun lres =>
          (if beforeEndB end_ node.key incl = true
             then r.traverseInRange start end_ asc incl ((d + 1) % 256) post (fun _ _ => false)
             else some ([], false)).bind (fun rres =>
            some ((if (!post) = true then [(node, d)] else []) ++
              ((if asc = true then lres.1 ++ rres.1 else rres.1 ++ lres.1) ++
               (if post = true then [(node, d)] else [])), false)))) := by
  refine ⟨traverse_range_aux (sizeOf node) node le_rfl hg start end_ asc incl d post, ?_⟩
  intro l r hl hr hht
  cases node with
  | mk k v hh lh rh ver sz ln rn ht sv p =>
    simp only [Node.leftNode] at hl
    simp only [Node.rightNode] at hr
    simp only [Node.height] at hht
    simp only [Node.key]
    subst hl
    subst hr
    have hbeq : (ht == 0) = false := by simp [hht]
    obtain ⟨l', r', hln, hrn, hgl, hgr, h1, h2, h3, h4, h5⟩ :=
      goodB_inner k v hh lh rh ver sz (some l) (some r) ht sv p hht hg
    obtain rfl : l' = l := by
      injection hln with h
      exact h.symm
    obtain rfl : r' = r := by
      injection hrn with h
      exact h.symm
    obtain ⟨trl, heql, hrl⟩ :=
      traverse_range_aux (sizeOf l') l' le_rfl hgl start end_ asc incl ((d + 1) % 256) post
    obtain ⟨trr, heqr, hrr⟩ :=
      traverse_range_aux (sizeOf r') r' le_rfl hgr start end_ asc incl ((d + 1) % 256) post
    rw [Node.traverseInRange.eq_def]
    simp only [hbeq, Bool.not_false, Bool.true_or, Bool.and_true, ite_self,
      Bool.false_eq_true, if_false, Option.pure_def, option_monad_bind]
    rw [show (Option.isNone start || (bytesCompare (goBytes start) (goBytes k) == Ordering.lt)) =
      afterStartB start k from rfl]
    rw [show (if incl = true then Option.isNone end_ || !(bytesCompare (goBytes k) (goBytes end_) == Ordering.gt)
        else Option.isNone end_ || (bytesCompare (goBytes k) (goBytes end_) == Ordering.lt)) =
      beforeEndB end_ k incl from rfl]
    rw [heql, heqr]
    cases asc <;>
      by_cases hA : afterStartB start k = true <;>
        by_cases hB : beforeEndB end_ k incl = true <;>
          simp [hA, hB, option_monad_bind]

/-- Witness for C7 at a concrete two-leaf tree with range `[[2], ∞)`: the
invariant holds and the traversal reports exactly the in-range leaf keys. -/
theorem iavl_c7_witness :
    (Node.mk (some [2]) none none (some [9]) (some [10]) 1 2
        (some (Node.mk (some [1]) (some [7]) none none none 1 1 none none 0 false false))
        (some (Node.mk (some [2]) (some [8]) none none none 1 1 none none 0 false false))
        1 false false).goodB = true ∧
    (∃ tr, (Node.mk (some [2]) none none (some [9]) (some [10]) 1 2
        (some (Node.mk (some [1]) (some [7]) none none none 1 1 none none 0 false false))
        (some (Node.mk (some [2]) (some [8]) none none none 1 1 none none 0 false false))
        1 false false).traverseInRange (some [2]) none true false 0 false
          (fun _ _ => false) = some (tr, false) ∧
      reportedKeys tr =
        (if true = true then
          (Node.mk (some [2]) none none (some [9]) (some [10]) 1 2
            (some (Node.mk (some [1]) (some [7]) none none none 1 1 none none 0 false false))
            (some (Node.mk (some [2]) (some [8]) none none none 1 1 none none 0 false false))
            1 false false).leafKeys.filter (inRangeB (some [2]) none false)
         else ((Node.mk (some [2]) none none (some [9]) (some [10]) 1 2
            (some (Node.mk (some [1]) (some [7]) none none none 1 1 none none 0 false false))
            (some (Node.mk (some [2]) (some [8]) none none none 1 1 none none 0 false false))
            1 false false).leafKeys.filter (inRangeB (some [2]) none false)).reverse)) :=
  ⟨by decide,
   (iavl_c7 (Node.mk (some [2]) none none (some [9]) (some [10]) 1 2
       (some (Node.mk (some [1]) (some [7]) none none none 1 1 none none 0 false false))
       (some (Node.mk (some [2]) (some [8]) none none none 1 1 none none 0 false false))
       1 false false) (by decide) (some [2]) none true false 0 false).1⟩

end Iavl



















